import Mathlib

/-!
Verification of the store / search core of the `alfredalt` repository
(`src/db.rs`, with the validating entry points of `src/backend.rs`).

Embedding conventions:
* Rust `String` / `&str` values are `List Char` (indices are char offsets;
  in this model every index is a char boundary, so the byte-boundary
  clamping helpers of `db.rs` become index clamps).
* Rust `f32` scores are modelled as exact rationals `ℚ`; the constants
  (0.85, 0.15, 0.96, 1.08, 0.98, 0.62, f32::EPSILON = 2^-23) are carried
  over literally.  No verified property depends on rounding.
* The Unicode case-folding / alphanumeric tables used by Rust's
  `char::to_lowercase` and `char::is_alphanumeric` live in the Rust
  standard library, outside this repository; they are modelled by their
  ASCII fragment (identity on everything else).  Rust's
  `char::is_whitespace` (the Unicode White_Space set) is small enough to
  embed exactly.
* The tantivy index is external to the repository: the hits produced by
  `Store::lucene_search_hits` enter `search` as an arbitrary parameter,
  and a tantivy `Snippet` is its fragment plus highlight ranges.
* The filesystem / index I/O of `flush_all` does not change the in-memory
  model, so flushing is the identity here.
-/

namespace AlfredAlt

/-- Rust `char::is_whitespace`: the Unicode White_Space set, embedded exactly. -/
def rustIsWhitespace (c : Char) : Bool :=
  let n := c.toNat
  n == 0x09 || n == 0x0A || n == 0x0B || n == 0x0C || n == 0x0D || n == 0x20 ||
  n == 0x85 || n == 0xA0 || n == 0x1680 || (0x2000 ≤ n && n ≤ 0x200A) ||
  n == 0x2028 || n == 0x2029 || n == 0x202F || n == 0x205F || n == 0x3000

/-- Rust `char::to_lowercase` for one char: a sequence of chars drawn from the
Unicode lowercase table (standard library, external to the repo); modelled by
ASCII case folding, identity elsewhere. -/
def rustToLowercaseChar (c : Char) : List Char :=
  if 'A' ≤ c ∧ c ≤ 'Z' then [Char.ofNat (c.toNat + 32)] else [c]

/-- Rust `str::to_lowercase`. -/
def rustToLowercase : List Char → List Char
  | [] => []
  | c :: rest => rustToLowercaseChar c ++ rustToLowercase rest

/-- Rust `char::is_alphanumeric` (Unicode Alphabetic/Number tables, external);
modelled by its ASCII fragment. -/
def rustIsAlphanumeric (c : Char) : Bool :=
  ('a' ≤ c && c ≤ 'z') || ('A' ≤ c && c ≤ 'Z') || ('0' ≤ c && c ≤ '9')

/-- Rust `char::is_ascii_hexdigit`. -/
def rustIsAsciiHexdigit (c : Char) : Bool :=
  ('0' ≤ c && c ≤ '9') || ('a' ≤ c && c ≤ 'f') || ('A' ≤ c && c ≤ 'F')

/-- Rust `str::trim_start`. -/
def rustTrimStart (s : List Char) : List Char := s.dropWhile rustIsWhitespace

/-- Rust `str::trim_end`. -/
def rustTrimEnd (s : List Char) : List Char :=
  (s.reverse.dropWhile rustIsWhitespace).reverse

/-- Rust `str::trim`. -/
def rustTrim (s : List Char) : List Char := rustTrimEnd (rustTrimStart s)

/-- Rust `str::trim_matches` with a character-set predicate. -/
def rustTrimMatches (p : Char → Bool) (s : List Char) : List Char :=
  ((s.dropWhile p).reverse.dropWhile p).reverse

/-- Scanner of `str::split_whitespace`, accumulating the current token in
reverse. -/
def splitWSGo : List Char → List Char → List (List Char)
  | [], acc => if acc.isEmpty then [] else [acc.reverse]
  | c :: rest, acc =>
    if rustIsWhitespace c then
      if acc.isEmpty then splitWSGo rest [] else acc.reverse :: splitWSGo rest []
    else splitWSGo rest (c :: acc)

/-- Rust `str::split_whitespace`: maximal non-whitespace runs, in order. -/
def splitWhitespace (s : List Char) : List (List Char) := splitWSGo s []

/-- Insert into a sorted list, before the first element not `le`-below the new
one: the helper of the insertion sort used to model Rust's `sort_by` /
`sort_unstable_by_key` (same sorted result for the total, tie-breaking
comparators used here; stable like `sort_by`). -/
def insertSortedBy (le : α → α → Bool) (a : α) : List α → List α
  | [] => [a]
  | b :: l => if le a b then a :: b :: l else b :: insertSortedBy le a l

/-- Stable insertion sort by a boolean comparator (see `insertSortedBy`). -/
def insertionSortBy (le : α → α → Bool) : List α → List α
  | [] => []
  | a :: l => insertSortedBy le a (insertionSortBy le l)

/-- Rust `str::find(pattern)` as a splitter: `some (before, after)` at the first
occurrence of `pat`, so the scanned text is `before ++ pat ++ after`. -/
def splitFirst (pat : List Char) : List Char → Option (List Char × List Char)
  | [] => if pat.isPrefixOf ([] : List Char) then some ([], []) else none
  | c :: rest =>
    if pat.isPrefixOf (c :: rest) then some ([], (c :: rest).drop pat.length)
    else (splitFirst pat rest).map (fun pr => (c :: pr.1, pr.2))

/-- Rust `str::contains(pattern)`: substring containment. -/
def rustContains (text pat : List Char) : Bool := (splitFirst pat text).isSome

/-- Rust `text.matches(pat).count()` specialised to the `"**"` highlight-marker
pattern: non-overlapping occurrences, scanned left to right. -/
def twoStarCount : List Char → Nat
  | [] => 0
  | [_] => 0
  | a :: b :: rest =>
    if a = '*' ∧ b = '*' then twoStarCount rest + 1
    else twoStarCount (b :: rest)

/-- Shorthand: the char list of a string literal. -/
def chars (s : String) : List Char := s.data

/-- Split a char list at every occurrence of `sep` (keeping empty pieces). -/
def splitOnChar (sep : Char) : List Char → List (List Char)
  | [] => [[]]
  | c :: rest =>
    if c = sep then [] :: splitOnChar sep rest
    else
      match splitOnChar sep rest with
      | [] => [[c]]
      | p :: ps => (c :: p) :: ps

/-- Rust `str::lines`: split on `\n`, strip one trailing `\r` per line, and do
not yield a final empty line when the text ends with a newline. -/
def rustLines (s : List Char) : List (List Char) :=
  if s = [] then []
  else
    let parts := splitOnChar '\n' s
    let parts := if s.getLast? = some '\n' then parts.dropLast else parts
    parts.map (fun l => if l.getLast? = some '\r' then l.dropLast else l)

/-- `BLOCK_NOTE_PAYLOAD_PREFIX` of db.rs. -/
def BLOCK_NOTE_PAYLOAD_PREFIX : List Char := chars "__AABLK1__"

/-- `strip_block_payload_lines` of db.rs: drop whole lines whose trimmed start
begins with the reserved payload marker, rejoin with `\n`. -/
def strip_block_payload_lines (note : List Char) : List Char :=
  List.intercalate ['\n']
    ((rustLines note).filter
      (fun line => !(BLOCK_NOTE_PAYLOAD_PREFIX.isPrefixOf (rustTrimStart line))))

/-- The inline image-reference scheme prefix `alfred://image/` of db.rs. -/
def ALFRED_IMAGE_SCHEME : List Char := chars "alfred://image/"

/-- Loop body of `strip_inline_image_refs` (db.rs): scan for `![`, then `](`,
then `)`; drop the whole `![...](alfred://image/...)` form, pass any other
form through, and pass the remainder verbatim when a terminator is missing.
The fuel is an upper bound on the number of iterations; the Rust loop's cursor
advances past a nonempty pattern each round, so `text.length + 1` suffices. -/
def stripInlineAux : Nat → List Char → List Char
  | 0, text => text
  | fuel + 1, text =>
    match splitFirst (chars "![") text with
    | none => text
    | some (before, afterBang) =>
      match splitFirst (chars "](") afterBang with
      | none => text
      | some (alt, afterBP) =>
        match splitFirst [')'] afterBP with
        | none => text
        | some (url, afterClose) =>
          if ALFRED_IMAGE_SCHEME.isPrefixOf url then
            before ++ stripInlineAux fuel afterClose
          else
            before ++ chars "![" ++ alt ++ chars "](" ++ url ++ [')'] ++
              stripInlineAux fuel afterClose

/-- `strip_inline_image_refs` of db.rs. -/
def strip_inline_image_refs (text : List Char) : List Char :=
  stripInlineAux (text.length + 1) text

/-- Character loop of `collapse_whitespace` (db.rs): replace whitespace runs by
a single space, tracking whether the previous output char was a space. -/
def collapseAux : List Char → Bool → List Char
  | [], _ => []
  | c :: rest, prevSpace =>
    if rustIsWhitespace c then
      if prevSpace then collapseAux rest true else ' ' :: collapseAux rest true
    else c :: collapseAux rest false

/-- `collapse_whitespace` of db.rs (the final `.trim()` included). -/
def collapse_whitespace (text : List Char) : List Char :=
  rustTrim (collapseAux text false)

/-- The punctuation set trimmed by `looks_like_image_residue` (db.rs):
the chars of `",.;:()[]{}<>\"'"`. -/
def isResidueTrimChar (c : Char) : Bool :=
  [',', '.', ';', ':', '(', ')', '[', ']', Char.ofNat 0x7b, Char.ofNat 0x7d,
    '<', '>', Char.ofNat 34, Char.ofNat 39].contains c

/-- `looks_like_image_residue` of db.rs. -/
def looks_like_image_residue (token : List Char) : Bool :=
  if rustContains token ALFRED_IMAGE_SCHEME then true
  else
    let trimmed := rustTrimMatches isResidueTrimChar token
    if !(rustContains trimmed (chars "?w=")) then false
    else
      let base :=
        match splitFirst (chars "?w=") trimmed with
        | some pr => pr.1
        | none => []
      if (chars "img-").isPrefixOf base || (chars "pasted-").isPrefixOf base then true
      else
        let hexCount := (base.filter rustIsAsciiHexdigit).length
        let total := base.length
        6 ≤ hexCount && total ≤ 24

/-- `strip_image_residue_tokens` of db.rs. -/
def strip_image_residue_tokens (text : List Char) : List Char :=
  List.intercalate [' ']
    ((splitWhitespace text).filter (fun tok => !looks_like_image_residue tok))

/-- `sanitize_note_for_preview` of db.rs. -/
def sanitize_note_for_preview (note : List Char) : List Char :=
  strip_image_residue_tokens
    (collapse_whitespace (strip_inline_image_refs (strip_block_payload_lines note)))

/-- `contains_case_insensitive` of db.rs. -/
def contains_case_insensitive (text needle : List Char) : Bool :=
  rustContains (rustToLowercase text) (rustToLowercase needle)

/-- `parse_query_terms` of db.rs: whitespace-split, trim, drop empties,
lowercase. -/
def parse_query_terms (query : List Char) : List (List Char) :=
  (((splitWhitespace query).map rustTrim).filter (fun t => !t.isEmpty)).map
    rustToLowercase

/-- `FUZZY_QUERY_TERM_MIN_CHARS` of db.rs. -/
def FUZZY_QUERY_TERM_MIN_CHARS : Nat := 4

/-- `FUZZY_SIMILARITY_THRESHOLD` of db.rs (an `f32`, carried over exactly). -/
def FUZZY_SIMILARITY_THRESHOLD : ℚ := 62 / 100

/-- `f32::EPSILON`, used by `best_fuzzy_word_match` for score ties. -/
def F32_EPSILON : ℚ := 1 / 2 ^ 23

/-- The character-pair windows `chars.windows(2)` of `bigram_dice_similarity`. -/
def bigrams : List Char → List (Char × Char)
  | a :: b :: rest => (a, b) :: bigrams (b :: rest)
  | _ => []

/-- `bigram_dice_similarity` of db.rs: single-char inputs compare by their
first characters; otherwise twice the shared bigram multiset size over the
total bigram count.  The two `HashMap` counters and the `min`-overlap sum are
`List.bagInter` (multiset intersection) here. -/
def bigram_dice_similarity (left right : List Char) : ℚ :=
  match left, right with
  | [], _ => 0
  | _, [] => 0
  | l0 :: ltl, r0 :: rtl =>
    if ltl = [] ∨ rtl = [] then (if l0 = r0 then 1 else 0)
    else
      let overlap := (List.bagInter (bigrams (l0 :: ltl)) (bigrams (r0 :: rtl))).length
      let total : ℚ := (((l0 :: ltl).length - 1) + ((r0 :: rtl).length - 1) : ℕ)
      if total ≤ 0 then 0 else (2 * overlap : ℚ) / total

/-- `fuzzy_term_similarity` of db.rs. -/
def fuzzy_term_similarity (query candidate : List Char) : ℚ :=
  if query = [] ∨ candidate = [] then 0
  else if query = candidate then 1
  else if rustContains candidate query || rustContains query candidate then 96 / 100
  else
    let dice := bigram_dice_similarity query candidate
    let ql := query.length
    let cl := candidate.length
    let lenFrac : ℚ := ((min ql cl : ℕ) : ℚ) / ((max ql cl : ℕ) : ℚ)
    dice * (85 / 100) + lenFrac * (15 / 100)

/-- `lengths_are_fuzzy_compatible` of db.rs. -/
def lengths_are_fuzzy_compatible (left right : Nat) : Bool :=
  max left right ≤ min left right * 2

/-- `LowercaseIndex` of db.rs: the lowercased text plus, per lowered position,
the source range it came from (offsets are char offsets in this model). -/
structure LowercaseIndex where
  lowered : List Char
  byteToSource : List (Nat × Nat)
deriving Repr

/-- Loop of `build_lowercase_index` over `char_indices`. -/
def buildLowerAux : List Char → Nat → List Char × List (Nat × Nat)
  | [], _ => ([], [])
  | c :: rest, i =>
    let piece := rustToLowercaseChar c
    let tail := buildLowerAux rest (i + 1)
    (piece ++ tail.1, List.replicate piece.length (i, i + 1) ++ tail.2)

/-- `build_lowercase_index` of db.rs. -/
def build_lowercase_index (text : List Char) : LowercaseIndex :=
  let p := buildLowerAux text 0
  ⟨p.1, p.2⟩

/-- `source_range_for_lower_range` of db.rs. -/
def source_range_for_lower_range (idx : LowercaseIndex) (ls le : Nat) :
    Option (Nat × Nat) :=
  if le ≤ ls ∨ idx.byteToSource.length < le then none
  else
    match idx.byteToSource[ls]?, idx.byteToSource[le - 1]? with
    | some p, some q => if p.1 < q.2 then some (p.1, q.2) else none
    | _, _ => none

/-- `first_exact_match_position` of db.rs: earliest, then longest, exact
case-insensitive occurrence of any query term. -/
def first_exact_match_position (text : List Char) (query_terms : List (List Char)) :
    Option (Nat × Nat) :=
  let idx := build_lowercase_index text
  query_terms.foldl
    (fun best term =>
      if term = [] then best
      else
        let tl := rustToLowercase term
        if tl = [] then best
        else
          match splitFirst tl idx.lowered with
          | none => best
          | some pr =>
            let pos := pr.1.length
            match source_range_for_lower_range idx pos (pos + tl.length) with
            | none => best
            | some sr =>
              match best with
              | none => some sr
              | some b =>
                let bestLen := b.2 - b.1
                let srcLen := sr.2 - sr.1
                if sr.1 < b.1 ∨ (sr.1 = b.1 ∧ bestLen < srcLen) then some sr
                else some b)
    none

/-- Loop of `collect_word_spans` over `char_indices`, tracking the start of the
current alphanumeric run. -/
def collectSpansAux : List Char → Nat → Option Nat → List (Nat × Nat)
  | [], _, none => []
  | [], n, some st => [(st, n)]
  | c :: rest, i, cur =>
    if rustIsAlphanumeric c then
      match cur with
      | none => collectSpansAux rest (i + 1) (some i)
      | some st => collectSpansAux rest (i + 1) (some st)
    else
      match cur with
      | none => collectSpansAux rest (i + 1) none
      | some st => (st, i) :: collectSpansAux rest (i + 1) none

/-- `collect_word_spans` of db.rs. -/
def collect_word_spans (text : List Char) : List (Nat × Nat) :=
  collectSpansAux text 0 none

/-- Rust slice `text[s..e]`. -/
def sliceList (t : List Char) (s e : Nat) : List Char := (t.take e).drop s

/-- `best_fuzzy_word_match` of db.rs. -/
def best_fuzzy_word_match (text : List Char) (query_terms : List (List Char)) :
    Option (Nat × Nat × ℚ) :=
  let terms := query_terms.filter (fun t => FUZZY_QUERY_TERM_MIN_CHARS ≤ t.length)
  if terms = [] then none
  else
    (collect_word_spans text).foldl
      (fun best sp =>
        let token := sliceList text sp.1 sp.2
        let tokenLower := rustToLowercase token
        let tokenLen := tokenLower.length
        if tokenLen < FUZZY_QUERY_TERM_MIN_CHARS then best
        else
          terms.foldl
            (fun best term =>
              if !lengths_are_fuzzy_compatible term.length tokenLen then best
              else
                let score := fuzzy_term_similarity term tokenLower
                if score < FUZZY_SIMILARITY_THRESHOLD then best
                else
                  match best with
                  | none => some (sp.1, sp.2, score)
                  | some b =>
                    if b.2.2 < score ∨ (|score - b.2.2| ≤ F32_EPSILON ∧ sp.1 < b.1)
                    then some (sp.1, sp.2, score)
                    else some b)
            best)
      none

/-- `fuzzy_row_score` of db.rs: best title match at 1.08, best note match at
0.98, whichever is larger. -/
def fuzzy_row_score (title note : List Char) (query_terms : List (List Char)) : ℚ :=
  let titleScore :=
    match best_fuzzy_word_match title query_terms with
    | some m => m.2.2 * (108 / 100)
    | none => 0
  let noteScore :=
    match best_fuzzy_word_match note query_terms with
    | some m => m.2.2 * (98 / 100)
    | none => 0
  max titleScore noteScore

/-- `FieldMatch` of db.rs (`end` is `stop` here: `end` is a Lean keyword). -/
structure FieldMatch where
  start : Nat
  stop : Nat
  exact : Bool
deriving Repr, DecidableEq

/-- `find_field_match` of db.rs. -/
def find_field_match (text : List Char) (query_terms : List (List Char)) :
    Option FieldMatch :=
  match first_exact_match_position text query_terms with
  | some pr => some ⟨pr.1, pr.2, true⟩
  | none => (best_fuzzy_word_match text query_terms).map (fun m => ⟨m.1, m.2.1, false⟩)

/-- `previous_char_boundary` of db.rs: clamp to the length, then walk back to a
char boundary — in the char-list model every index is a boundary. -/
def previous_char_boundary (text : List Char) (i : Nat) : Nat := min i text.length

/-- `next_char_boundary` of db.rs (see `previous_char_boundary`). -/
def next_char_boundary (text : List Char) (i : Nat) : Nat := min i text.length

/-- The `while` loop of `highlight_query_terms` collecting every occurrence of
one term, resuming each search at the end of the previous match.  Fuel bounds
the iteration count; each round consumes at least one char of the scanned
suffix, so `s.length + 1` suffices (the caller guards `pat` nonempty). -/
def findAllOccAux (pat : List Char) : Nat → List Char → Nat → List (Nat × Nat)
  | 0, _, _ => []
  | fuel + 1, s, base =>
    match splitFirst pat s with
    | none => []
    | some pr =>
      (base + pr.1.length, base + pr.1.length + pat.length) ::
        findAllOccAux pat fuel pr.2 (base + pr.1.length + pat.length)

/-- All non-overlapping occurrences of `pat` in `s` (lowered offsets). -/
def findAllOccurrences (pat s : List Char) : List (Nat × Nat) :=
  findAllOccAux pat (s.length + 1) s 0

/-- The overlap-merging loops of `highlight_query_terms` /
`snippet_with_markers`: ranges sorted by start; a range touching the last kept
range extends it, otherwise it is appended. -/
def mergeRangesAux : List (Nat × Nat) → List (Nat × Nat) → List (Nat × Nat)
  | merged, [] => merged
  | merged, r :: rest =>
    match merged.getLast? with
    | some last =>
      if r.1 ≤ last.2 then
        mergeRangesAux (merged.dropLast ++ [if last.2 < r.2 then (last.1, r.2) else last]) rest
      else mergeRangesAux (merged ++ [r]) rest
    | none => mergeRangesAux [r] rest

/-- Merge sorted highlight ranges (db.rs). -/
def mergeRanges (ranges : List (Nat × Nat)) : List (Nat × Nat) :=
  mergeRangesAux [] ranges

/-- The rendering loop of `highlight_query_terms` / `snippet_with_markers`:
interleave the text with `**` markers around each merged range. -/
def renderAux (text : List Char) : List (Nat × Nat) → Nat → List Char
  | [], cursor => text.drop cursor
  | r :: rest, cursor =>
    sliceList text cursor r.1 ++ ['*', '*'] ++ sliceList text r.1 r.2 ++
      ['*', '*'] ++ renderAux text rest r.2

/-- Render merged highlight ranges over `text` (db.rs). -/
def renderHighlights (text : List Char) (merged : List (Nat × Nat)) : List Char :=
  renderAux text merged 0

/-- `highlight_query_terms` of db.rs: wrap every case-insensitive occurrence of
every query term in `**...**`, merging overlapping ranges first.  (The Rust
code sorts with an unstable sort; ranges with equal starts always overlap, so
the merged output does not depend on their relative order.) -/
def highlight_query_terms (text : List Char) (query_terms : List (List Char)) :
    List Char :=
  let idx := build_lowercase_index text
  let ranges :=
    query_terms.foldl
      (fun acc term =>
        if term = [] then acc
        else
          let tl := rustToLowercase term
          if tl = [] then acc
          else
            acc ++ (findAllOccurrences tl idx.lowered).filterMap
              (fun r => source_range_for_lower_range idx r.1 r.2))
      []
  if ranges = [] then text
  else
    let sorted := insertionSortBy (fun a b => decide (a.1 ≤ b.1)) ranges
    renderHighlights text (mergeRanges sorted)

/-- `highlight_span` of db.rs: wrap a single span in `**...**`. -/
def highlight_span (text : List Char) (s e : Nat) : List Char :=
  let s' := previous_char_boundary text s
  let e' := next_char_boundary text (min e text.length)
  if e' ≤ s' ∨ text.length < s' ∨ text.length < e' then text
  else
    sliceList text 0 s' ++ ['*', '*'] ++ sliceList text s' e' ++ ['*', '*'] ++
      text.drop e'

/-- `build_field_snippet` of db.rs. -/
def build_field_snippet (source : String) (text : List Char)
    (query_terms : List (List Char)) (context_chars : Nat) :
    Option (String × List Char) :=
  if text = [] then none
  else
    match find_field_match text query_terms with
    | none => none
    | some fm =>
      let raw_start := fm.start - context_chars
      let raw_end := min (fm.stop + context_chars) text.length
      let start := previous_char_boundary text raw_start
      let stop := next_char_boundary text raw_end
      if stop ≤ start then none
      else
        let window := sliceList text start stop
        let snippet0 :=
          if fm.exact then highlight_query_terms window query_terms
          else highlight_span window (fm.start - start) (min fm.stop stop - start)
        let snippet1 := if 0 < start then chars "..." ++ snippet0 else snippet0
        let snippet2 := if stop < text.length then snippet1 ++ chars "..." else snippet1
        if twoStarCount snippet2 < 2 then none else some (source, snippet2)

/-- `build_snippet_with_terms` of db.rs (the `_title` argument is unused in the
source and omitted here): note first, then subtitle, then keywords. -/
def build_snippet_with_terms (subtitle keywords note : List Char)
    (query_terms : List (List Char)) : Option (String × List Char) :=
  if query_terms = [] then none
  else
    let sanitized := sanitize_note_for_preview note
    match build_field_snippet "note" sanitized query_terms 24 with
    | some s => some s
    | none =>
      match build_field_snippet "subtitle" subtitle query_terms 32 with
      | some s => some s
      | none => build_field_snippet "keywords" keywords query_terms 32

/-- `snippet_with_markers` of db.rs.  A tantivy `Snippet` is external to the
repository; here it is its `fragment` text plus `highlighted` ranges, with
`Snippet::is_empty` reporting that no highlight ranges were produced.  (Either
reading of `is_empty` only adds an early `none` exit and cannot affect the
highlight-pair guarantee proved below.) -/
def snippet_with_markers (fragment : List Char) (highlighted : List (Nat × Nat)) :
    Option (List Char) :=
  if highlighted.isEmpty then none
  else if fragment = [] then none
  else
    let ranges := highlighted.filterMap (fun r =>
      let s := previous_char_boundary fragment (min r.1 fragment.length)
      let e := next_char_boundary fragment (min r.2 fragment.length)
      if s < e then some (s, e) else none)
    if ranges = [] then none
    else
      let sorted := insertionSortBy (fun a b => decide (a.1 ≤ b.1)) ranges
      let merged := mergeRanges sorted
      let rendered := renderHighlights fragment merged
      if twoStarCount rendered < 2 then none
      else
        let trimmed := rustTrim rendered
        if trimmed = [] then none else some trimmed

/-- `MAX_SCREENSHOT_BYTES` of db.rs. -/
def MAX_SCREENSHOT_BYTES : Nat := 12000000

/-- `MAX_NOTE_IMAGE_COUNT` of db.rs. -/
def MAX_NOTE_IMAGE_COUNT : Nat := 24

/-- `FUZZY_SCAN_MULTIPLIER` of db.rs. -/
def FUZZY_SCAN_MULTIPLIER : Int := 64

/-- `FUZZY_SCAN_MAX_ROWS` of db.rs. -/
def FUZZY_SCAN_MAX_ROWS : Int := 2048

/-- `i64::MAX`, the saturation point of `saturating_add`. -/
def I64_MAX : Int := 2 ^ 63 - 1

/-- `NoteImage` of models.rs / `PersistedImage` of db.rs: an image key and an
opaque byte blob (bytes as naturals below 256). -/
structure NoteImage where
  image_key : List Char
  bytes : List Nat
deriving Repr, DecidableEq

/-- `PersistedItem` of db.rs. -/
structure PersistedItem where
  id : Int
  title : List Char
  subtitle : List Char
  keywords : List Char
  note : List Char
  images : List NoteImage
deriving Repr, DecidableEq

/-- `PersistedData` of db.rs: the next free id, the settings map, and the
items.  The `BTreeMap<i64, PersistedItem>` is a list kept in ascending id
order (`StoreWF` below). -/
structure PersistedData where
  next_item_id : Int
  settings : List (List Char × List Char)
  items : List PersistedItem
deriving Repr, DecidableEq

/-- The `BTreeMap` well-formedness the Rust type maintains by construction:
items strictly ascending by id. -/
def StoreWF (s : PersistedData) : Prop :=
  s.items.Pairwise (fun a b => a.id < b.id)

/-- The ids of a list of items. -/
def itemIds (items : List PersistedItem) : List Int :=
  items.map PersistedItem.id

/-- `BTreeMap::insert`: insert or replace by id, keeping ascending order. -/
def mapInsert (items : List PersistedItem) (it : PersistedItem) :
    List PersistedItem :=
  match items with
  | [] => [it]
  | x :: rest =>
    if it.id < x.id then it :: x :: rest
    else if it.id = x.id then it :: rest
    else x :: mapInsert rest it

/-- `BTreeMap::remove` (by id, on the ascending list). -/
def mapRemove (items : List PersistedItem) (id : Int) : List PersistedItem :=
  match items with
  | [] => []
  | x :: rest => if x.id = id then rest else x :: mapRemove rest id

/-- `Store::item_by_id` / `item_by_id_mut` of db.rs. -/
def item_by_id (items : List PersistedItem) (id : Int) : Option PersistedItem :=
  items.find? (fun it => it.id = id)

/-- `Store::next_item_id` of db.rs: `max(next, 1)`, then a saturating
increment. -/
def next_item_id (s : PersistedData) : Int × PersistedData :=
  let id := max s.next_item_id 1
  (id, { s with next_item_id := min (id + 1) I64_MAX })

/-- `insert_item` of db.rs: assign the next id and create the item with blank
note/subtitle, empty images, and keywords equal to the title (no validation at
this layer; `flush_all` performs I/O only and is the identity on the model). -/
def insert_item (s : PersistedData) (title : List Char) : Int × PersistedData :=
  let p := next_item_id s
  (p.1,
    { p.2 with
      items := mapInsert p.2.items
        { id := p.1, title := title, subtitle := [], keywords := title,
          note := [], images := [] } })

/-- The two error kinds `update_item` / `delete_item` can surface, as
classified by `map_anyhow` (backend.rs): the `ensure!` messages
(`"too many note images"`, `"exceeds ... storage limit"`) map to Validation,
`"item not found"` maps to NotFound. -/
inductive DbError where
  | validation
  | notFound
deriving Repr, DecidableEq

/-- Body of `update_item` (db.rs) after validation, i.e. the closure run under
the store lock: a missing id is a silent no-op unless a nonempty images list
was supplied; otherwise the note is replaced and images are replaced only when
supplied. -/
def update_item_locked (s : PersistedData) (id : Int) (note : List Char)
    (images : Option (List NoteImage)) : Except DbError PersistedData :=
  match item_by_id s.items id with
  | none =>
    match images with
    | some imgs => if imgs.isEmpty then .ok s else .error .notFound
    | none => .ok s
  | some item =>
    let item' :=
      { item with note := note, images := images.getD item.images }
    .ok { s with items := mapInsert s.items item' }

/-- `update_item` of db.rs: image-count and per-image-size validation happens
before the store is touched, then the locked body runs. -/
def update_item (s : PersistedData) (id : Int) (note : List Char)
    (images : Option (List NoteImage)) : Except DbError PersistedData :=
  match images with
  | some imgs =>
    if MAX_NOTE_IMAGE_COUNT < imgs.length then .error .validation
    else if imgs.any (fun im => decide (MAX_SCREENSHOT_BYTES < im.bytes.length)) then
      .error .validation
    else update_item_locked s id note (some imgs)
  | none => update_item_locked s id note none

/-- The store state after `update_item`: the Rust function mutates in place,
so an error leaves the state exactly as it was. -/
def update_item_state (s : PersistedData) (id : Int) (note : List Char)
    (images : Option (List NoteImage)) : PersistedData :=
  match update_item s id note images with
  | .ok s' => s'
  | .error _ => s

/-- `delete_item` of db.rs. -/
def delete_item (s : PersistedData) (id : Int) : Except DbError PersistedData :=
  if (item_by_id s.items id).isSome then .ok { s with items := mapRemove s.items id }
  else .error .notFound

/-- The `next_item_id` recomputation of `load_data_from_lucene` (db.rs): the
field starts from the `Default` value 0, takes `max(next, id.saturating_add(1))`
per item document, and is floored to 1 at the end. -/
def reload_next_from_items (items : List PersistedItem) : Int :=
  let n := items.foldl (fun acc it => max acc (min (it.id + 1) I64_MAX)) 0
  if n ≤ 0 then 1 else n

/-- A store reload: `rebuild_index` (db.rs) writes one document per item and
per setting, and `load_data_from_lucene` reads them all back, so items and
settings round-trip; `next_item_id` itself is not persisted and is recomputed
from the maximum item id seen. -/
def reload (s : PersistedData) : PersistedData :=
  { s with next_item_id := reload_next_from_items s.items }

/-- `MAX_TITLE_LENGTH` of backend.rs (`create_item`). -/
def MAX_TITLE_LENGTH : Nat := 10000

/-- The character filter of `sanitize_title` (backend.rs). -/
def keepTitleChar (c : Char) : Bool :=
  if c = '\n' || c = '\t' || c = '\r' then true
  else if c < ' ' then false
  else if c = Char.ofNat 0xFFFD || c = Char.ofNat 0xFEFF then false
  else true

/-- `sanitize_title` of backend.rs. -/
def sanitize_title (title : List Char) : List Char := title.filter keepTitleChar

/-- UTF-8 byte length of one char (Rust `str::len` counts bytes). -/
def utf8CharLen (c : Char) : Nat :=
  if c.toNat < 0x80 then 1
  else if c.toNat < 0x800 then 2
  else if c.toNat < 0x10000 then 3
  else 4

/-- UTF-8 byte length of a string (Rust `str::len`). -/
def utf8Len (s : List Char) : Nat := (s.map utf8CharLen).sum

/-- `BackendError` of backend.rs (the `Storage` kind never arises in the
in-memory model, where I/O always succeeds). -/
inductive BackendError where
  | validation
  | notFound
  | storage
deriving Repr, DecidableEq

/-- `create_item` of backend.rs: sanitize the title, trim it, reject an empty
or over-long result with Validation, else insert. -/
def create_item (s : PersistedData) (title : List Char) :
    Except BackendError (Int × PersistedData) :=
  let t := rustTrim (sanitize_title title)
  if t = [] then .error .validation
  else if MAX_TITLE_LENGTH < utf8Len t then .error .validation
  else .ok (insert_item s t)

/-- The store state after `create_item`: an error leaves it untouched. -/
def create_item_state (s : PersistedData) (title : List Char) : PersistedData :=
  match create_item s title with
  | .ok p => p.2
  | .error _ => s

/-- `image_file_name` of db.rs, over the UTF-8 bytes of the image key (output
as a byte string): ASCII alphanumerics and `-`/`_`/`.` pass through, any other
byte becomes `_` plus two lowercase hex digits; an empty encoding yields
`image.bin`, otherwise `.bin` is appended. -/
def isPassThroughByte (b : Nat) : Bool :=
  (48 ≤ b && b ≤ 57) || (65 ≤ b && b ≤ 90) || (97 ≤ b && b ≤ 122) ||
    b == 45 || b == 95 || b == 46

/-- One lowercase hex digit (byte value) for a value below 16. -/
def hexDigitByte (n : Nat) : Nat := if n < 10 then 48 + n else 87 + n

/-- The encoding loop of `image_file_name`. -/
def imageFileNameEncoded (keyBytes : List Nat) : List Nat :=
  match keyBytes with
  | [] => []
  | b :: rest =>
    (if isPassThroughByte b then [b]
     else [95, hexDigitByte (b / 16 % 16), hexDigitByte (b % 16)]) ++
      imageFileNameEncoded rest

/-- `image_file_name` of db.rs. -/
def image_file_name (keyBytes : List Nat) : List Nat :=
  let encoded := imageFileNameEncoded keyBytes
  if encoded = [] then [105, 109, 97, 103, 101, 46, 98, 105, 110]
  else encoded ++ [46, 98, 105, 110]

/-- Byte-wise lexicographic order of Rust `String::cmp`, as a strict `<` on
char lists (UTF-8 byte order agrees with codepoint order). -/
def charListLt : List Char → List Char → Bool
  | [], [] => false
  | [], _ :: _ => true
  | _ :: _, [] => false
  | a :: xs, b :: ys => if a < b then true else if b < a then false else charListLt xs ys

/-- The comparator of `Store::ordered_items_for_listing` (db.rs): lowercased
title, then id. -/
def listingLe (l r : PersistedItem) : Bool :=
  let lt := rustToLowercase l.title
  let rt := rustToLowercase r.title
  if lt = rt then decide (l.id ≤ r.id) else charListLt lt rt

/-- `Store::ordered_items_for_listing` of db.rs. -/
def ordered_items_for_listing (items : List PersistedItem) : List PersistedItem :=
  insertionSortBy listingLe items

/-- `SearchResult` of models.rs. -/
structure SearchResult where
  id : Int
  title : List Char
  subtitle : List Char
  snippet : Option (List Char)
  snippet_source : Option String
deriving Repr, DecidableEq

/-- `LuceneSearchHit` of db.rs: what `Store::lucene_search_hits` (tantivy,
external) hands to the pipeline. -/
structure LuceneSearchHit where
  id : Int
  note_snippet : Option (List Char)
deriving Repr, DecidableEq

/-- `map_search_item` of db.rs: subtitle is cleared; a preferred (index-native)
snippet wins, else the generic builder runs. -/
def map_search_item (item : PersistedItem) (query_terms : List (List Char))
    (preferred : Option (List Char)) : SearchResult :=
  let sd :=
    match preferred with
    | some sn => some ("note", sn)
    | none => build_snippet_with_terms item.subtitle item.keywords item.note query_terms
  { id := item.id, title := item.title, subtitle := [],
    snippet := sd.map Prod.snd, snippet_source := sd.map Prod.fst }

/-- The per-item match test of `substring_search_rows` (db.rs): one token
matches the raw query against title or sanitized note; several tokens must all
occur (AND) across the lowercased title/note. -/
def substring_item_matches (item : PersistedItem) (query : List Char)
    (tokens : List (List Char)) : Bool :=
  let sanitized_note := sanitize_note_for_preview item.note
  if tokens.length ≤ 1 then
    contains_case_insensitive item.title query ||
      contains_case_insensitive sanitized_note query
  else
    let title_lower := rustToLowercase item.title
    let note_lower := rustToLowercase sanitized_note
    tokens.all (fun tok =>
      let t := rustToLowercase tok
      rustContains title_lower t || rustContains note_lower t)

/-- The scan loop of `substring_search_rows` (db.rs), with the remaining
output quota counted down (the Rust loop breaks once `output.len() >= limit`). -/
def substringRowsGo (query : List Char) (query_terms tokens : List (List Char))
    (seen : List Int) : List PersistedItem → Nat → List SearchResult
  | _, 0 => []
  | [], _ + 1 => []
  | item :: rest, limit + 1 =>
    if item.id ∈ seen then substringRowsGo query query_terms tokens seen rest (limit + 1)
    else if substring_item_matches item query tokens then
      map_search_item item query_terms none ::
        substringRowsGo query query_terms tokens seen rest limit
    else substringRowsGo query query_terms tokens seen rest (limit + 1)

/-- `substring_search_rows` of db.rs. -/
def substring_search_rows (items : List PersistedItem) (query : List Char)
    (query_terms : List (List Char)) (limit : Nat) (seen : List Int) :
    List SearchResult :=
  substringRowsGo query query_terms (splitWhitespace query) seen items limit

/-- The `sort_by` comparator of `fuzzy_search_rows` (db.rs): score descending,
then title ascending, then id ascending.  (`partial_cmp` on the `f32` scores is
total here: the rational model has no NaN, and the Rust scores never are.) -/
def fuzzyCandLe (l r : ℚ × PersistedItem) : Bool :=
  if l.1 = r.1 then
    (if l.2.title = r.2.title then decide (l.2.id ≤ r.2.id)
     else charListLt l.2.title r.2.title)
  else decide (r.1 < l.1)

/-- `fuzzy_search_rows` of db.rs. -/
def fuzzy_search_rows (items_by_recent_id : List PersistedItem)
    (query_terms : List (List Char)) (limit : Int) (seen : List Int) :
    List SearchResult :=
  if limit ≤ 0 then []
  else if !(query_terms.any (fun t => FUZZY_QUERY_TERM_MIN_CHARS ≤ t.length)) then []
  else
    let scan_limit := min (max limit 8 * FUZZY_SCAN_MULTIPLIER) FUZZY_SCAN_MAX_ROWS
    let scored := (items_by_recent_id.take scan_limit.toNat).filterMap (fun item =>
      if item.id ∈ seen then none
      else
        let sanitized_note := sanitize_note_for_preview item.note
        let score := fuzzy_row_score item.title sanitized_note query_terms
        if score < FUZZY_SIMILARITY_THRESHOLD then none else some (score, item))
    let sorted := insertionSortBy fuzzyCandLe scored
    (sorted.take limit.toNat).map (fun c =>
      let sd := build_snippet_with_terms c.2.subtitle c.2.keywords c.2.note query_terms
      { id := c.2.id, title := c.2.title, subtitle := [],
        snippet := sd.map Prod.snd, snippet_source := sd.map Prod.fst })

/-- The first stage of `search` (db.rs): walk the index hits, deduplicating by
id as results accumulate, returning early once the limit is reached.  Note the
Rust `seen_ids.insert` happens before the item lookup, so a hit id enters
`seen` even when its item no longer exists. -/
def luceneStage (s : PersistedData) (query_terms : List (List Char)) :
    List LuceneSearchHit → Nat → List SearchResult → List Int →
      List SearchResult × List Int
  | [], _, results, seen => (results, seen)
  | hit :: rest, limit, results, seen =>
    if hit.id ∈ seen then luceneStage s query_terms rest limit results seen
    else
      match item_by_id s.items hit.id with
      | none => luceneStage s query_terms rest limit results (hit.id :: seen)
      | some item =>
        let results' := results ++ [map_search_item item query_terms hit.note_snippet]
        if limit ≤ results'.length then (results', hit.id :: seen)
        else luceneStage s query_terms rest limit results' (hit.id :: seen)

/-- The shared shape of the substring/fuzzy result loops of `search` (db.rs):
append each row whose id is new, returning early at the limit. -/
def appendRows : List SearchResult → Nat → List SearchResult → List Int →
    List SearchResult × List Int
  | [], _, results, seen => (results, seen)
  | row :: rest, limit, results, seen =>
    if row.id ∈ seen then appendRows rest limit results seen
    else
      let results' := results ++ [row]
      if limit ≤ results'.length then (results', row.id :: seen)
      else appendRows rest limit results' (row.id :: seen)

/-- `search` of db.rs, with the tantivy hit list (external) as a parameter:
clamp the limit, list alphabetically on an empty query, else run the indexed
stage, the ordered substring scan, and the fuzzy fallback, each skipping seen
ids and stopping at the limit. -/
def search (s : PersistedData) (lucene_hits : List LuceneSearchHit)
    (query : List Char) (limit : Int) : List SearchResult :=
  let limit := max limit 0
  if limit = 0 then []
  else
    let query := rustTrim query
    if query = [] then
      ((ordered_items_for_listing s.items).take limit.toNat).map (fun item =>
        { id := item.id, title := item.title, subtitle := item.subtitle,
          snippet := none, snippet_source := none })
    else
      let query_terms := parse_query_terms query
      let p1 := luceneStage s query_terms lucene_hits limit.toNat [] []
      if limit.toNat ≤ p1.1.length then p1.1
      else
        let remaining := limit.toNat - p1.1.length
        let rows := substring_search_rows s.items query query_terms remaining p1.2
        let p2 := appendRows rows limit.toNat p1.1 p1.2
        if limit.toNat ≤ p2.1.length then p2.1
        else
          let remaining2 : Int := limit - p2.1.length
          let frows := fuzzy_search_rows s.items.reverse query_terms remaining2 p2.2
          (appendRows frows limit.toNat p2.1 p2.2).1

/-- The ids of a search result list. -/
def resultIds (rs : List SearchResult) : List Int := rs.map SearchResult.id

/-- A store operation for id-lifecycle traces: an `insert_item`, a
`delete_item`, or a restart (index round-trip via `load_data_from_lucene`). -/
inductive StoreOp where
  | insert (title : List Char)
  | delete (id : Int)
  | reload
deriving Repr, DecidableEq

/-- Run one operation; a failed delete (NotFound) leaves the store unchanged.
The assigned id is reported for inserts. -/
def runOp (s : PersistedData) : StoreOp → PersistedData × Option Int
  | .insert t => let p := insert_item s t; (p.2, some p.1)
  | .delete id =>
    match delete_item s id with
    | .ok s' => (s', none)
    | .error _ => (s, none)
  | .reload => (reload s, none)

/-- Run a list of operations, collecting the ids assigned by inserts in
order. -/
def runOps (s : PersistedData) : List StoreOp → PersistedData × List Int
  | [] => (s, [])
  | op :: rest =>
    let p := runOp s op
    let q := runOps p.1 rest
    match p.2 with
    | some id => (q.1, id :: q.2)
    | none => q

/-! ## Helper lemmas -/

theorem twoStarCount_cons_ne (c : Char) (s : List Char) (h : c ≠ '*') :
    twoStarCount (c :: s) = twoStarCount s := by
  cases s with
  | nil => simp [twoStarCount]
  | cons d t => simp [twoStarCount, h]

theorem ws_ne_star {c : Char} (h : rustIsWhitespace c = true) : c ≠ '*' := by
  rintro rfl
  revert h
  decide

theorem twoStarCount_append_left_ws (t s : List Char)
    (h : ∀ c ∈ t, rustIsWhitespace c = true) :
    twoStarCount (t ++ s) = twoStarCount s := by
  induction t with
  | nil => simp
  | cons c t ih =>
    have hc := h c (by simp)
    rw [List.cons_append, twoStarCount_cons_ne _ _ (ws_ne_star hc)]
    exact ih (fun d hd => h d (by simp [hd]))

theorem twoStarCount_all_ws (t : List Char)
    (h : ∀ c ∈ t, rustIsWhitespace c = true) : twoStarCount t = 0 := by
  have := twoStarCount_append_left_ws t [] h
  simpa using this

theorem twoStarCount_append_right_ws (s t : List Char)
    (h : ∀ c ∈ t, rustIsWhitespace c = true) :
    twoStarCount (s ++ t) = twoStarCount s := by
  induction s using twoStarCount.induct with
  | case1 => simpa using twoStarCount_all_ws t h
  | case2 a =>
    cases t with
    | nil => simp
    | cons d t' =>
      have hd := h d (by simp)
      have hne := ws_ne_star hd
      simp only [List.singleton_append, List.cons_append, twoStarCount]
      rw [if_neg (by rintro ⟨_, rfl⟩; exact hne rfl)]
      simpa [twoStarCount] using twoStarCount_all_ws (d :: t') h
  | case3 a b rest hab ih =>
    simp only [List.cons_append, twoStarCount, if_pos hab]
    exact congrArg (fun n => n + 1) ih
  | case4 a b rest hab ih =>
    simp only [List.cons_append, twoStarCount, if_neg hab]
    simpa only [List.cons_append] using ih

theorem twoStarCount_rustTrim (s : List Char) :
    twoStarCount (rustTrim s) = twoStarCount s := by
  unfold rustTrim rustTrimStart rustTrimEnd
  set d := s.dropWhile rustIsWhitespace with hd
  have h1 : twoStarCount s = twoStarCount d := by
    conv_lhs => rw [← List.takeWhile_append_dropWhile (p := rustIsWhitespace) (l := s)]
    exact twoStarCount_append_left_ws _ _ (fun c hc => List.mem_takeWhile_imp hc)
  set r := d.reverse.dropWhile rustIsWhitespace with hr
  have h2 : d = r.reverse ++ (d.reverse.takeWhile rustIsWhitespace).reverse := by
    calc d = d.reverse.reverse := (List.reverse_reverse d).symm
    _ = (d.reverse.takeWhile rustIsWhitespace ++ d.reverse.dropWhile rustIsWhitespace).reverse := by
        rw [List.takeWhile_append_dropWhile]
    _ = r.reverse ++ (d.reverse.takeWhile rustIsWhitespace).reverse := by
        rw [List.reverse_append, hr]
  rw [h1, h2]
  exact (twoStarCount_append_right_ws _ _
    (fun c hc => List.mem_takeWhile_imp (List.mem_reverse.mp hc))).symm

theorem rustContains_single (c d : Char) (h : c ≠ d) :
    rustContains [c] [d] = false := by
  simp [rustContains, splitFirst, List.isPrefixOf, Ne.symm h]

theorem imageFileNameEncoded_passthrough (k : List Nat)
    (h : ∀ b ∈ k, isPassThroughByte b = true) : imageFileNameEncoded k = k := by
  induction k with
  | nil => rfl
  | cons b rest ih =>
    simp only [imageFileNameEncoded, h b (by simp), if_pos]
    rw [ih (fun x hx => h x (by simp [hx]))]
    rfl

theorem item_by_id_mapInsert_self (items : List PersistedItem) (it : PersistedItem) :
    item_by_id (mapInsert items it) it.id = some it := by
  induction items with
  | nil => simp [mapInsert, item_by_id, List.find?]
  | cons x rest ih =>
    by_cases h1 : it.id < x.id
    · simp [mapInsert, h1, item_by_id, List.find?]
    · by_cases h2 : it.id = x.id
      · simp [mapInsert, h1, h2, item_by_id, List.find?]
      · have hne : ¬(x.id = it.id) = true := by simp; omega
        simp only [mapInsert, if_neg h1, if_neg h2, item_by_id] at ih ⊢
        rw [List.find?_cons_of_neg _ (by simpa using hne)]
        exact ih

theorem item_by_id_eq_id {items : List PersistedItem} {id : Int}
    {it : PersistedItem} (h : item_by_id items id = some it) : it.id = id := by
  have := List.find?_some h
  simpa using this

theorem rustTrim_eq_nil_iff (s : List Char) :
    rustTrim s = [] ↔ ∀ c ∈ s, rustIsWhitespace c = true := by
  constructor
  · intro h c hc
    unfold rustTrim rustTrimEnd rustTrimStart at h
    rw [List.reverse_eq_nil_iff, List.dropWhile_eq_nil_iff] at h
    have hsplit : c ∈ s.takeWhile rustIsWhitespace ++ s.dropWhile rustIsWhitespace := by
      rw [List.takeWhile_append_dropWhile]
      exact hc
    rcases List.mem_append.mp hsplit with hm | hm
    · exact List.mem_takeWhile_imp hm
    · exact h c (List.mem_reverse.mpr hm)
  · intro h
    unfold rustTrim rustTrimStart rustTrimEnd
    have : s.dropWhile rustIsWhitespace = [] :=
      List.dropWhile_eq_nil_iff.mpr (fun c hc => h c hc)
    rw [this]
    rfl

/-! ## Claim theorems -/

/-- C10: `build_field_snippet` and `snippet_with_markers` (db.rs) return a
snippet only when its text contains at least one complete `**...**` highlight
pair, i.e. at least two non-overlapping `**` marker occurrences; windows that
matched without producing a visible highlight yield no snippet. -/
theorem snippet_requires_highlight_pair :
    (∀ (source : String) (text : List Char) (query_terms : List (List Char))
        (context_chars : Nat) (src : String) (snip : List Char),
        build_field_snippet source text query_terms context_chars = some (src, snip) →
        2 ≤ twoStarCount snip) ∧
    (∀ (fragment : List Char) (highlighted : List (Nat × Nat)) (snip : List Char),
        snippet_with_markers fragment highlighted = some snip →
        2 ≤ twoStarCount snip) := by
  constructor
  · intro source text terms ctx src snip h
    simp only [build_field_snippet] at h
    repeat' split at h
    all_goals
      try (rw [Option.some.injEq, Prod.mk.injEq] at h
           obtain ⟨-, rfl⟩ := h
           omega)
    all_goals simp at h
  · intro fragment highlighted snip h
    simp only [snippet_with_markers] at h
    repeat' split at h
    all_goals
      try (rw [Option.some.injEq] at h
           subst h
           rw [twoStarCount_rustTrim]
           omega)
    all_goals simp at h

/-- C10 witness: a concrete field text and term for which a snippet is
produced, whose text indeed carries a complete highlight pair. -/
theorem snippet_requires_highlight_pair_witness :
    2 ≤ twoStarCount (chars "hello **world**") :=
  snippet_requires_highlight_pair.1 "note" (chars "hello world")
    [chars "world"] 24 "note" (chars "hello **world**") (by decide)

/-- C8 counterexample: the claim says `fuzzy_term_similarity("a", "b") = 0.0`,
but `bigram_dice_similarity` returns 0 while the length-ratio term contributes
`0.15`, so the code returns `0.85 * 0 + 0.15 * 1 = 0.15 ≠ 0`. -/
theorem fuzzy_term_similarity_a_b_counterexample :
    fuzzy_term_similarity (chars "a") (chars "b") = 3 / 20 ∧
    fuzzy_term_similarity (chars "a") (chars "b") ≠ 0 := by
  have h : fuzzy_term_similarity (chars "a") (chars "b") = 3 / 20 := by
    show fuzzy_term_similarity ['a'] ['b'] = 3 / 20
    have hc : ¬((rustContains ['b'] ['a'] || rustContains ['a'] ['b']) = true) := by
      rw [rustContains_single 'b' 'a' (by decide), rustContains_single 'a' 'b' (by decide)]
      simp
    rw [fuzzy_term_similarity, if_neg (by simp), if_neg (by simp), if_neg hc]
    have hdice : bigram_dice_similarity ['a'] ['b'] = 0 := by
      simp [bigram_dice_similarity]
    rw [hdice]
    norm_num
  refine ⟨h, ?_⟩
  rw [h]
  norm_num

/-- C8 amended: identical single-character strings score 1.0; distinct
single-character strings get bigram Dice similarity 0 but keep the
length-ratio term, so `fuzzy_term_similarity` returns 0.15 (not 0.0); in
particular `fuzzy_term_similarity("a","b") = 0.15`. -/
theorem fuzzy_term_similarity_single_char (c d : Char) :
    fuzzy_term_similarity [c] [c] = 1 ∧
    (c ≠ d → fuzzy_term_similarity [c] [d] = 3 / 20) := by
  refine ⟨by simp [fuzzy_term_similarity], fun h => ?_⟩
  have h1 : ¬([c] = ([] : List Char) ∨ [d] = ([] : List Char)) := by simp
  have h2 : ([c] : List Char) ≠ [d] := by simpa using h
  have h3 : ¬((rustContains [d] [c] || rustContains [c] [d]) = true) := by
    rw [rustContains_single d c (Ne.symm h), rustContains_single c d h]
    simp
  rw [fuzzy_term_similarity, if_neg h1, if_neg h2, if_neg h3]
  have hdice : bigram_dice_similarity [c] [d] = 0 := by
    simp [bigram_dice_similarity, h]
  rw [hdice]
  norm_num

/-- C8 amended witness at `x`, `y`. -/
theorem fuzzy_term_similarity_single_char_witness :
    fuzzy_term_similarity ['x'] ['x'] = 1 ∧
    fuzzy_term_similarity ['x'] ['y'] = 3 / 20 :=
  ⟨(fuzzy_term_similarity_single_char 'x' 'y').1,
    (fuzzy_term_similarity_single_char 'x' 'y').2 (by decide)⟩

/-- C9 counterexample: `image_file_name` maps two distinct keys — the empty
key and the key `"image"` (UTF-8 bytes 105,109,97,103,101) — to the same file
name `image.bin`, so distinct image keys do not always get distinct files in
the JSON mirror's `images/` directory. -/
theorem image_file_name_collision :
    image_file_name [] = image_file_name [105, 109, 97, 103, 101] ∧
    ([] : List Nat) ≠ [105, 109, 97, 103, 101] := by
  constructor <;> decide

/-- C9 amended: on nonempty keys built only from pass-through bytes (ASCII
alphanumerics, `-`, `_`, `.`) the encoding is the identity, so distinct keys
get distinct file names; in general the escape byte `_` is itself a
pass-through byte and the empty key shares `image.bin` with the key `image`,
so distinct keys can collide. -/
theorem image_file_name_injective_on_passthrough (k1 k2 : List Nat)
    (h1 : ∀ b ∈ k1, isPassThroughByte b = true)
    (h2 : ∀ b ∈ k2, isPassThroughByte b = true)
    (n1 : k1 ≠ []) (n2 : k2 ≠ []) (hne : k1 ≠ k2) :
    image_file_name k1 ≠ image_file_name k2 := by
  unfold image_file_name
  rw [imageFileNameEncoded_passthrough k1 h1, imageFileNameEncoded_passthrough k2 h2,
    if_neg n1, if_neg n2]
  intro h
  exact hne (List.append_cancel_right h)

/-- C9 amended witness at the keys `a` and `b`. -/
theorem image_file_name_injective_on_passthrough_witness :
    image_file_name [97] ≠ image_file_name [98] :=
  image_file_name_injective_on_passthrough [97] [98] (by decide) (by decide)
    (by decide) (by decide) (by decide)

/-- C6: `update_item` (db.rs) rejects with a Validation error any images list
longer than `MAX_NOTE_IMAGE_COUNT` (24) or containing an image over
`MAX_SCREENSHOT_BYTES` (12,000,000) bytes; the `ensure!` checks run before the
store is touched, so the whole store — in particular the addressed item's note
and images — is exactly what it was before the call. -/
theorem update_item_rejects_oversized_images (s : PersistedData) (id : Int)
    (note : List Char) (imgs : List NoteImage)
    (h : MAX_NOTE_IMAGE_COUNT < imgs.length ∨
      ∃ im ∈ imgs, MAX_SCREENSHOT_BYTES < im.bytes.length) :
    update_item s id note (some imgs) = .error .validation ∧
    update_item_state s id note (some imgs) = s := by
  have hval : update_item s id note (some imgs) = .error .validation := by
    by_cases hc : MAX_NOTE_IMAGE_COUNT < imgs.length
    · simp [update_item, hc]
    · have hsz : ∃ im ∈ imgs, MAX_SCREENSHOT_BYTES < im.bytes.length := by
        rcases h with h | h
        · exact absurd h hc
        · exact h
      rcases hsz with ⟨im, hmem, hgt⟩
      have hany : imgs.any (fun im => decide (MAX_SCREENSHOT_BYTES < im.bytes.length)) = true :=
        List.any_eq_true.mpr ⟨im, hmem, by simpa using hgt⟩
      simp [update_item, hc, hany]
  refine ⟨hval, ?_⟩
  unfold update_item_state
  rw [hval]

/-- C6 witness: 25 empty images are rejected and the (empty) store is
untouched. -/
theorem update_item_rejects_oversized_images_witness :
    update_item ⟨1, [], []⟩ 1 [] (some (List.replicate 25 ⟨[], []⟩)) =
      .error .validation ∧
    update_item_state ⟨1, [], []⟩ 1 [] (some (List.replicate 25 ⟨[], []⟩)) =
      ⟨1, [], []⟩ :=
  update_item_rejects_oversized_images ⟨1, [], []⟩ 1 []
    (List.replicate 25 ⟨[], []⟩) (Or.inl (by decide))

/-- C7: for an existing item, a successful `update_item(id, note, None)` leaves
`images` exactly as before and replaces the note, and a successful
`update_item(id, note, Some(imgs))` replaces `images` exactly with `imgs` and
the note with `note` (the stored record is the old one with exactly those
fields changed).  The size hypotheses are what "successful" means for the
`Some` call on an existing id. -/
theorem update_item_images_frame (s : PersistedData) (id : Int)
    (note : List Char) (imgs : List NoteImage) (item : PersistedItem)
    (hfind : item_by_id s.items id = some item)
    (hcount : imgs.length ≤ MAX_NOTE_IMAGE_COUNT)
    (hsize : ∀ im ∈ imgs, im.bytes.length ≤ MAX_SCREENSHOT_BYTES) :
    (∃ s', update_item s id note none = .ok s' ∧
      item_by_id s'.items id = some { item with note := note }) ∧
    (∃ s', update_item s id note (some imgs) = .ok s' ∧
      item_by_id s'.items id = some { item with note := note, images := imgs }) := by
  have hid : item.id = id := item_by_id_eq_id hfind
  have hval1 : ¬MAX_NOTE_IMAGE_COUNT < imgs.length := by omega
  have hval2 :
      imgs.any (fun im => decide (MAX_SCREENSHOT_BYTES < im.bytes.length)) = false := by
    rw [List.any_eq_false]
    intro im hmem
    have := hsize im hmem
    simp
    omega
  constructor
  · refine ⟨{ s with items := mapInsert s.items { item with note := note } }, ?_, ?_⟩
    · simp [update_item, update_item_locked, hfind]
    · have := item_by_id_mapInsert_self s.items { item with note := note }
      simpa [hid] using this
  · refine ⟨{ s with items := mapInsert s.items { item with note := note, images := imgs } },
      ?_, ?_⟩
    · simp [update_item, update_item_locked, hval1, hval2, hfind]
    · have := item_by_id_mapInsert_self s.items { item with note := note, images := imgs }
      simpa [hid] using this

/-- C7 witness: a one-item store; a note-only save keeps the stored image, a
save with a fresh image list replaces it. -/
theorem update_item_images_frame_witness :
    (∃ s', update_item
        ⟨2, [], [⟨1, chars "t", [], chars "t", chars "old", [⟨chars "k", [7]⟩]⟩]⟩
        1 (chars "new") none = .ok s' ∧
      item_by_id s'.items 1 =
        some ⟨1, chars "t", [], chars "t", chars "new", [⟨chars "k", [7]⟩]⟩) ∧
    (∃ s', update_item
        ⟨2, [], [⟨1, chars "t", [], chars "t", chars "old", [⟨chars "k", [7]⟩]⟩]⟩
        1 (chars "new") (some [⟨chars "m", [9]⟩]) = .ok s' ∧
      item_by_id s'.items 1 =
        some ⟨1, chars "t", [], chars "t", chars "new", [⟨chars "m", [9]⟩]⟩) :=
  update_item_images_frame
    ⟨2, [], [⟨1, chars "t", [], chars "t", chars "old", [⟨chars "k", [7]⟩]⟩]⟩
    1 (chars "new") [⟨chars "m", [9]⟩]
    ⟨1, chars "t", [], chars "t", chars "old", [⟨chars "k", [7]⟩]⟩
    (by decide) (by decide) (by decide)

/-- C2 counterexample: the claim says that whenever images are supplied
(`Some(imgs)`) for a nonexistent id, `update_item` fails with NotFound — but
`update_item` (db.rs) only errors when the supplied list is nonempty
(`matches!(images, Some(imgs) if !imgs.is_empty())`), so `Some([])` on a
missing id succeeds as a silent no-op. -/
theorem update_item_missing_id_counterexample :
    update_item ⟨1, [], []⟩ 5 [] (some []) = .ok ⟨1, [], []⟩ ∧
    update_item ⟨1, [], []⟩ 5 [] (some []) ≠ .error .notFound := by
  have h1 : update_item ⟨1, [], []⟩ 5 [] (some []) = .ok ⟨1, [], []⟩ := rfl
  refine ⟨h1, ?_⟩
  rw [h1]
  simp

/-- C2 amended: for an id not in the store, `update_item(id, note, None)` and
`update_item(id, note, Some([]))` both succeed and change nothing (silent
no-ops); a NotFound failure arises exactly when a *nonempty* images list that
passes validation is supplied for the missing id. -/
theorem update_item_missing_id_behaviour (s : PersistedData) (id : Int)
    (note : List Char) (imgs : List NoteImage)
    (hmiss : item_by_id s.items id = none) :
    update_item s id note none = .ok s ∧
    update_item s id note (some []) = .ok s ∧
    (imgs ≠ [] → imgs.length ≤ MAX_NOTE_IMAGE_COUNT →
      (∀ im ∈ imgs, im.bytes.length ≤ MAX_SCREENSHOT_BYTES) →
      update_item s id note (some imgs) = .error .notFound) := by
  refine ⟨?_, ?_, ?_⟩
  · simp [update_item, update_item_locked, hmiss]
  · simp [update_item, update_item_locked, hmiss, MAX_NOTE_IMAGE_COUNT]
  · intro hne hcount hsize
    have hval1 : ¬MAX_NOTE_IMAGE_COUNT < imgs.length := by omega
    have hval2 :
        imgs.any (fun im => decide (MAX_SCREENSHOT_BYTES < im.bytes.length)) = false := by
      rw [List.any_eq_false]
      intro im hmem
      have := hsize im hmem
      simp
      omega
    simp [update_item, update_item_locked, hval1, hval2, hmiss, hne]

/-- C2 amended witness: on the empty store, a note-only update of id 5 and a
`Some([])` update are accepted no-ops, while a nonempty image list yields
NotFound. -/
theorem update_item_missing_id_behaviour_witness :
    update_item ⟨1, [], []⟩ 5 (chars "n") none = .ok ⟨1, [], []⟩ ∧
    update_item ⟨1, [], []⟩ 5 (chars "n") (some []) = .ok ⟨1, [], []⟩ ∧
    update_item ⟨1, [], []⟩ 5 (chars "n") (some [⟨chars "k", [7]⟩]) =
      .error .notFound := by
  have h := update_item_missing_id_behaviour ⟨1, [], []⟩ 5 (chars "n")
    [⟨chars "k", [7]⟩] (by decide)
  exact ⟨h.1, h.2.1, h.2.2 (by decide) (by decide) (by decide)⟩

/-- C1 counterexample: the claim says a title that is empty after trimming
makes `insert_item` fail with Validation and create no item, but `insert_item`
(db.rs) performs no title validation at all: on the empty title it assigns the
next id and creates an item with that empty title (the empty-title Validation
failure lives in its caller `create_item`, backend.rs). -/
theorem insert_item_empty_title_counterexample :
    rustTrim [] = [] ∧
    insert_item ⟨1, [], []⟩ [] =
      (1, ⟨2, [], [⟨1, [], [], [], [], []⟩]⟩) := by
  constructor
  · rfl
  · decide

/-- C1 amended: `insert_item` (db.rs) itself validates nothing — for *every*
title it assigns the next id (`max(next_item_id, 1)`, next advancing with a
saturating increment) and creates an item with blank note and subtitle, empty
images, and keywords equal to the title.  The claimed Validation failure for a
title that is empty after trimming is enforced by the caller `create_item`
(backend.rs), which then leaves the store untouched (it also rejects titles
over 10,000 UTF-8 bytes). -/
theorem insert_item_and_create_item_validation :
    (∀ (s : PersistedData) (title : List Char),
      (insert_item s title).1 = max s.next_item_id 1 ∧
      (insert_item s title).2.next_item_id = min (max s.next_item_id 1 + 1) I64_MAX ∧
      item_by_id (insert_item s title).2.items (insert_item s title).1 =
        some ⟨(insert_item s title).1, title, [], title, [], []⟩) ∧
    (∀ (s : PersistedData) (title : List Char), rustTrim title = [] →
      create_item s title = .error .validation ∧ create_item_state s title = s) := by
  constructor
  · intro s title
    refine ⟨rfl, rfl, ?_⟩
    exact item_by_id_mapInsert_self (next_item_id s).2.items
      ⟨(insert_item s title).1, title, [], title, [], []⟩
  · intro s title htrim
    have hws : ∀ c ∈ title, rustIsWhitespace c = true := (rustTrim_eq_nil_iff title).mp htrim
    have hsan : rustTrim (sanitize_title title) = [] := by
      rw [rustTrim_eq_nil_iff]
      intro c hc
      exact hws c (List.mem_of_mem_filter hc)
    have hc : create_item s title = .error .validation := by
      simp [create_item, hsan]
    refine ⟨hc, ?_⟩
    unfold create_item_state
    rw [hc]

/-- C1 amended witness: on the empty store, the all-whitespace title `" "` is
rejected by `create_item` with Validation and the store is unchanged, while
`insert_item` applied to `"x"` creates item 1 with keywords `"x"`. -/
theorem insert_item_and_create_item_validation_witness :
    (create_item ⟨1, [], []⟩ [' '] = .error .validation ∧
      create_item_state ⟨1, [], []⟩ [' '] = ⟨1, [], []⟩) ∧
    item_by_id (insert_item ⟨1, [], []⟩ ['x']).2.items
        (insert_item ⟨1, [], []⟩ ['x']).1 =
      some ⟨(insert_item ⟨1, [], []⟩ ['x']).1, ['x'], [], ['x'], [], []⟩ :=
  ⟨insert_item_and_create_item_validation.2 ⟨1, [], []⟩ [' '] (by decide),
    (insert_item_and_create_item_validation.1 ⟨1, [], []⟩ ['x']).2.2⟩

theorem mem_mapInsert {items : List PersistedItem} {it x : PersistedItem}
    (h : x ∈ mapInsert items it) : x = it ∨ x ∈ items := by
  induction items with
  | nil => simpa [mapInsert] using h
  | cons y rest ih =>
    by_cases h1 : it.id < y.id
    · simp only [mapInsert, if_pos h1, List.mem_cons] at h
      rcases h with h | h | h
      · exact Or.inl h
      · exact Or.inr (by simp [h])
      · exact Or.inr (by simp [h])
    · by_cases h2 : it.id = y.id
      · simp only [mapInsert, if_neg h1, if_pos h2, List.mem_cons] at h
        rcases h with h | h
        · exact Or.inl h
        · exact Or.inr (by simp [h])
      · simp only [mapInsert, if_neg h1, if_neg h2, List.mem_cons] at h
        rcases h with h | h
        · exact Or.inr (by simp [h])
        · rcases ih h with h' | h'
          · exact Or.inl h'
          · exact Or.inr (by simp [h'])

theorem mem_mapRemove {items : List PersistedItem} {id : Int} {x : PersistedItem}
    (h : x ∈ mapRemove items id) : x ∈ items := by
  induction items with
  | nil => simp [mapRemove] at h
  | cons y rest ih =>
    by_cases hy : y.id = id
    · simp only [mapRemove, if_pos hy] at h
      exact List.mem_cons_of_mem _ h
    · simp only [mapRemove, if_neg hy, List.mem_cons] at h
      rcases h with h | h
      · exact (by simp [h] : x ∈ y :: rest)
      · exact List.mem_cons_of_mem _ (ih h)

theorem delete_item_ok {s : PersistedData} {d : Int} {s' : PersistedData}
    (h : delete_item s d = .ok s') :
    s' = { s with items := mapRemove s.items d } := by
  unfold delete_item at h
  split at h
  · rw [Except.ok.injEq] at h
    exact h.symm
  · exact absurd h (by simp)

theorem runOp_delete_none (s : PersistedData) (d : Int) :
    (runOp s (.delete d)).2 = none := by
  rcases hd : delete_item s d with e | s' <;> simp [runOp, hd]

theorem runOp_delete_state (s : PersistedData) (d : Int) :
    (runOp s (.delete d)).1.next_item_id = s.next_item_id ∧
    ∀ x ∈ (runOp s (.delete d)).1.items, x ∈ s.items := by
  rcases hd : delete_item s d with e | s'
  · have hr : runOp s (.delete d) = (s, none) := by simp [runOp, hd]
    rw [hr]
    exact ⟨rfl, fun x hx => hx⟩
  · have hr : runOp s (.delete d) = (s', none) := by simp [runOp, hd]
    rw [hr]
    have := delete_item_ok hd
    subst this
    exact ⟨rfl, fun x hx => mem_mapRemove hx⟩

theorem reload_next_pos (items : List PersistedItem) :
    0 < reload_next_from_items items := by
  by_cases h :
      (items.foldl (fun acc it => max acc (min (it.id + 1) I64_MAX)) 0) ≤ 0
  · simp [reload_next_from_items, h]
  · simp only [reload_next_from_items, if_neg h]
    omega

theorem runOps_cons (s : PersistedData) (op : StoreOp) (rest : List StoreOp) :
    runOps s (op :: rest) =
      ((runOps (runOp s op).1 rest).1,
        match (runOp s op).2 with
        | some id => id :: (runOps (runOp s op).1 rest).2
        | none => (runOps (runOp s op).1 rest).2) := by
  show (let p := runOp s op
    let q := runOps p.1 rest
    match p.2 with
    | some id => (q.1, id :: q.2)
    | none => q) = _
  rcases runOp s op with ⟨s', a⟩
  cases a <;> rfl

theorem runOps_cons_insert (s : PersistedData) (t : List Char) (rest : List StoreOp) :
    runOps s (StoreOp.insert t :: rest) =
      ((runOps (insert_item s t).2 rest).1,
        (insert_item s t).1 :: (runOps (insert_item s t).2 rest).2) := by
  rw [runOps_cons]
  rfl

theorem runOps_cons_delete (s : PersistedData) (d : Int) (rest : List StoreOp) :
    runOps s (StoreOp.delete d :: rest) = runOps (runOp s (.delete d)).1 rest := by
  rw [runOps_cons, runOp_delete_none]

theorem runOps_cons_reload (s : PersistedData) (rest : List StoreOp) :
    runOps s (StoreOp.reload :: rest) = runOps (reload s) rest := by
  rw [runOps_cons]
  rfl

theorem runOps_pos_ids (ops : List StoreOp) : ∀ (s : PersistedData),
    0 < s.next_item_id → (∀ it ∈ s.items, 0 < it.id) →
    0 < (runOps s ops).1.next_item_id ∧ ∀ it ∈ (runOps s ops).1.items, 0 < it.id := by
  induction ops with
  | nil => intro s h1 h2; exact ⟨h1, h2⟩
  | cons op rest ih =>
    intro s h1 h2
    match op with
    | .insert t =>
      rw [runOps_cons_insert]
      refine ih (insert_item s t).2 ?_ ?_
      · show 0 < min (max s.next_item_id 1 + 1) I64_MAX
        unfold I64_MAX
        omega
      · intro it hit
        rcases mem_mapInsert hit with rfl | hmem
        · show 0 < max s.next_item_id 1
          omega
        · exact h2 it hmem
    | .delete d =>
      rw [runOps_cons_delete]
      obtain ⟨hn, hi⟩ := runOp_delete_state s d
      exact ih _ (hn ▸ h1) (fun it hit => h2 it (hi it hit))
    | .reload =>
      rw [runOps_cons_reload]
      exact ih (reload s) (reload_next_pos s.items) h2

theorem runOps_no_reload_ids (ops : List StoreOp) : ∀ (s : PersistedData),
    (∀ op ∈ ops, op ≠ StoreOp.reload) → 0 < s.next_item_id →
    s.next_item_id + ops.length ≤ I64_MAX →
    (∀ a ∈ (runOps s ops).2, s.next_item_id ≤ a ∧ 0 < a) ∧
    (runOps s ops).2.Chain' (· < ·) := by
  induction ops with
  | nil =>
    intro s _ _ _
    exact ⟨fun a ha => by simp [runOps] at ha, by simp [runOps]⟩
  | cons op rest ih =>
    intro s hnr hpos hbudget
    have hrest : ∀ op ∈ rest, op ≠ StoreOp.reload :=
      fun op h => hnr op (List.mem_cons_of_mem _ h)
    match op with
    | .insert t =>
      have hlen : s.next_item_id + (rest.length + 1) ≤ I64_MAX := by
        simpa [List.length_cons] using hbudget
      have hid : (insert_item s t).1 = s.next_item_id := by
        simp only [insert_item, next_item_id]
        omega
      have hnext : (insert_item s t).2.next_item_id = s.next_item_id + 1 := by
        show min (max s.next_item_id 1 + 1) I64_MAX = s.next_item_id + 1
        omega
      obtain ⟨ihA, ihB⟩ := ih (insert_item s t).2 hrest
        (by rw [hnext]; omega) (by rw [hnext]; omega)
      rw [runOps_cons_insert]
      constructor
      · intro a ha
        rcases List.mem_cons.mp ha with rfl | hmem
        · rw [hid]
          omega
        · have := ihA a hmem
          rw [hnext] at this
          omega
      · rw [List.chain'_cons']
        refine ⟨?_, ihB⟩
        intro b hb
        have hbmem : b ∈ (runOps (insert_item s t).2 rest).2 :=
          List.mem_of_mem_head? hb
        have := ihA b hbmem
        rw [hnext] at this
        rw [hid]
        omega
    | .delete d =>
      have hlen : s.next_item_id + (rest.length + 1) ≤ I64_MAX := by
        simpa [List.length_cons] using hbudget
      obtain ⟨hn, -⟩ := runOp_delete_state s d
      rw [runOps_cons_delete]
      obtain ⟨ihA, ihB⟩ := ih (runOp s (.delete d)).1 hrest
        (by rw [hn]; omega) (by rw [hn]; omega)
      refine ⟨?_, ihB⟩
      intro a ha
      have := ihA a ha
      rw [hn] at this
      exact this
    | .reload => exact absurd rfl (hnr .reload (by simp))

/-- C3 counterexample: ids 1 and 2 are assigned; item 2 is then deleted; after
a store reload (`load_data_from_lucene` recomputes `next_item_id` as the
maximum surviving id plus one, since the counter itself is not persisted) the
next insert assigns id 2 again — the id of a deleted item is reused. -/
theorem deleted_id_reused_after_reload_counterexample :
    (runOps ⟨1, [], []⟩ [.insert (chars "a"), .insert (chars "b")]).2 = [1, 2] ∧
    item_by_id
      (runOps ⟨1, [], []⟩
        [.insert (chars "a"), .insert (chars "b"), .delete 2]).1.items 2 = none ∧
    (runOps ⟨1, [], []⟩
      [.insert (chars "a"), .insert (chars "b"), .delete 2, .reload,
        .insert (chars "c")]).2 = [1, 2, 2] := by
  refine ⟨?_, ?_, ?_⟩ <;> decide

/-- C3 amended: over every sequence of inserts and deletes, item ids stay
positive — including across reloads; and as long as the store is not reloaded
(and the id counter, which starts at 1 and grows by a saturating increment,
stays below `i64::MAX`, guaranteed by the budget hypothesis), the ids assigned
by `insert_item` are strictly increasing and no id of a currently-stored item
(hence no id of an item deleted along the way) is ever assigned again.  After
a reload, `next_item_id` is recomputed as the maximum surviving id plus one,
so the id of a deleted item *can* be reassigned (see the counterexample). -/
theorem item_id_lifecycle :
    (∀ (s : PersistedData) (ops : List StoreOp),
      0 < s.next_item_id → (∀ it ∈ s.items, 0 < it.id) →
      0 < (runOps s ops).1.next_item_id ∧
        ∀ it ∈ (runOps s ops).1.items, 0 < it.id) ∧
    (∀ (s : PersistedData) (ops : List StoreOp),
      0 < s.next_item_id →
      (∀ it ∈ s.items, it.id < s.next_item_id) →
      (∀ op ∈ ops, op ≠ StoreOp.reload) →
      s.next_item_id + ops.length ≤ I64_MAX →
      (∀ a ∈ (runOps s ops).2, 0 < a) ∧
      (runOps s ops).2.Chain' (· < ·) ∧
      ∀ it ∈ s.items, it.id ∉ (runOps s ops).2) := by
  constructor
  · intro s ops h1 h2
    exact runOps_pos_ids ops s h1 h2
  · intro s ops hpos hbound hnr hbudget
    obtain ⟨hA, hB⟩ := runOps_no_reload_ids ops s hnr hpos hbudget
    refine ⟨fun a ha => (hA a ha).2, hB, ?_⟩
    intro it hit hmem
    have h1 := (hA it.id hmem).1
    have h2 := hbound it hit
    omega

/-- C3 amended witness: from a store holding item 2 with counter 3, two
inserts assign 3 and 4 — positive, strictly increasing, and never the id of
the already-stored item. -/
theorem item_id_lifecycle_witness :
    (0 < (runOps ⟨3, [], [⟨2, chars "t", [], chars "t", [], []⟩]⟩
        [.insert (chars "a"), .insert (chars "b")]).1.next_item_id ∧
      ∀ it ∈ (runOps ⟨3, [], [⟨2, chars "t", [], chars "t", [], []⟩]⟩
        [.insert (chars "a"), .insert (chars "b")]).1.items, 0 < it.id) ∧
    ((∀ a ∈ (runOps ⟨3, [], [⟨2, chars "t", [], chars "t", [], []⟩]⟩
        [.insert (chars "a"), .insert (chars "b")]).2, 0 < a) ∧
      (runOps ⟨3, [], [⟨2, chars "t", [], chars "t", [], []⟩]⟩
        [.insert (chars "a"), .insert (chars "b")]).2.Chain' (· < ·) ∧
      ∀ it ∈ ([⟨2, chars "t", [], chars "t", [], []⟩] : List PersistedItem),
        it.id ∉ (runOps ⟨3, [], [⟨2, chars "t", [], chars "t", [], []⟩]⟩
          [.insert (chars "a"), .insert (chars "b")]).2) :=
  ⟨item_id_lifecycle.1 ⟨3, [], [⟨2, chars "t", [], chars "t", [], []⟩]⟩
      [.insert (chars "a"), .insert (chars "b")] (by decide) (by decide),
    item_id_lifecycle.2 ⟨3, [], [⟨2, chars "t", [], chars "t", [], []⟩]⟩
      [.insert (chars "a"), .insert (chars "b")] (by decide) (by decide)
      (by decide) (by decide)⟩

theorem resultIds_append (a b : List SearchResult) :
    resultIds (a ++ b) = resultIds a ++ resultIds b :=
  List.map_append _ _ _

theorem map_search_item_id (item : PersistedItem) (terms : List (List Char))
    (pref : Option (List Char)) :
    (map_search_item item terms pref).id = item.id := rfl

theorem luceneStage_inv (s : PersistedData) (terms : List (List Char))
    (hits : List LuceneSearchHit) :
    ∀ (limit : Nat) (res : List SearchResult) (seen : List Int),
    (∀ i ∈ resultIds res, i ∈ seen) → (resultIds res).Nodup → res.length < limit →
    (∀ i ∈ resultIds (luceneStage s terms hits limit res seen).1,
      i ∈ (luceneStage s terms hits limit res seen).2) ∧
    (resultIds (luceneStage s terms hits limit res seen).1).Nodup ∧
    (luceneStage s terms hits limit res seen).1.length ≤ limit ∧
    (∃ ext, (luceneStage s terms hits limit res seen).1 = res ++ ext) ∧
    (∀ i ∈ seen, i ∈ (luceneStage s terms hits limit res seen).2) := by
  induction hits with
  | nil =>
    intro limit res seen h1 h2 h3
    simp only [luceneStage]
    exact ⟨h1, h2, le_of_lt h3, ⟨[], by simp⟩, fun i hi => hi⟩
  | cons hit rest ih =>
    intro limit res seen h1 h2 h3
    simp only [luceneStage]
    by_cases hseen : hit.id ∈ seen
    · rw [if_pos hseen]
      exact ih limit res seen h1 h2 h3
    · rw [if_neg hseen]
      cases hfind : item_by_id s.items hit.id with
      | none =>
        simp only []
        obtain ⟨c1, c2, c3, c4, c5⟩ := ih limit res (hit.id :: seen)
          (fun i hi => List.mem_cons_of_mem _ (h1 i hi)) h2 h3
        exact ⟨c1, c2, c3, c4, fun i hi => c5 i (List.mem_cons_of_mem _ hi)⟩
      | some item =>
        simp only []
        have hrowid : (map_search_item item terms hit.note_snippet).id = hit.id := by
          rw [map_search_item_id]
          exact item_by_id_eq_id hfind
        have hids : resultIds (res ++ [map_search_item item terms hit.note_snippet]) =
            resultIds res ++ [hit.id] := by
          rw [resultIds_append]
          simp [resultIds, hrowid]
        have h1' : ∀ i ∈ resultIds (res ++ [map_search_item item terms hit.note_snippet]),
            i ∈ hit.id :: seen := by
          intro i hi
          rw [hids] at hi
          rcases List.mem_append.mp hi with hi | hi
          · exact List.mem_cons_of_mem _ (h1 i hi)
          · simp at hi
            simp [hi]
        have h2' : (resultIds (res ++ [map_search_item item terms hit.note_snippet])).Nodup := by
          rw [hids, List.nodup_append]
          refine ⟨h2, List.nodup_singleton _, fun a ha hb => ?_⟩
          have haeq : a = hit.id := by simpa using hb
          exact hseen (haeq ▸ h1 a ha)
        by_cases hfull : limit ≤ (res ++ [map_search_item item terms hit.note_snippet]).length
        · rw [if_pos hfull]
          have hlen : (res ++ [map_search_item item terms hit.note_snippet]).length = limit := by
            simp only [List.length_append, List.length_singleton] at hfull ⊢
            omega
          exact ⟨h1', h2', le_of_eq hlen, ⟨[map_search_item item terms hit.note_snippet], rfl⟩,
            fun i hi => List.mem_cons_of_mem _ hi⟩
        · rw [if_neg hfull]
          have h3' : (res ++ [map_search_item item terms hit.note_snippet]).length < limit := by
            simp only [List.length_append, List.length_singleton] at hfull ⊢
            omega
          obtain ⟨c1, c2, c3, c4, c5⟩ := ih limit _ (hit.id :: seen) h1' h2' h3'
          refine ⟨c1, c2, c3, ?_, fun i hi => c5 i (List.mem_cons_of_mem _ hi)⟩
          obtain ⟨ext, hext⟩ := c4
          refine ⟨map_search_item item terms hit.note_snippet :: ext, ?_⟩
          rw [hext, List.append_assoc]
          rfl

theorem appendRows_inv (rows : List SearchResult) :
    ∀ (limit : Nat) (res : List SearchResult) (seen : List Int),
    (∀ i ∈ resultIds res, i ∈ seen) → (resultIds res).Nodup → res.length < limit →
    (∀ i ∈ resultIds (appendRows rows limit res seen).1,
      i ∈ (appendRows rows limit res seen).2) ∧
    (resultIds (appendRows rows limit res seen).1).Nodup ∧
    (appendRows rows limit res seen).1.length ≤ limit ∧
    (∃ ext, (appendRows rows limit res seen).1 = res ++ ext) ∧
    (∀ i ∈ seen, i ∈ (appendRows rows limit res seen).2) := by
  induction rows with
  | nil =>
    intro limit res seen h1 h2 h3
    simp only [appendRows]
    exact ⟨h1, h2, le_of_lt h3, ⟨[], by simp⟩, fun i hi => hi⟩
  | cons row rest ih =>
    intro limit res seen h1 h2 h3
    simp only [appendRows]
    by_cases hseen : row.id ∈ seen
    · rw [if_pos hseen]
      exact ih limit res seen h1 h2 h3
    · rw [if_neg hseen]
      have hids : resultIds (res ++ [row]) = resultIds res ++ [row.id] := by
        rw [resultIds_append]
        rfl
      have h1' : ∀ i ∈ resultIds (res ++ [row]), i ∈ row.id :: seen := by
        intro i hi
        rw [hids] at hi
        rcases List.mem_append.mp hi with hi | hi
        · exact List.mem_cons_of_mem _ (h1 i hi)
        · simp at hi
          simp [hi]
      have h2' : (resultIds (res ++ [row])).Nodup := by
        rw [hids, List.nodup_append]
        refine ⟨h2, List.nodup_singleton _, fun a ha hb => ?_⟩
        have haeq : a = row.id := by simpa using hb
        exact hseen (haeq ▸ h1 a ha)
      by_cases hfull : limit ≤ (res ++ [row]).length
      · rw [if_pos hfull]
        have hlen : (res ++ [row]).length = limit := by
          simp only [List.length_append, List.length_singleton] at hfull ⊢
          omega
        exact ⟨h1', h2', le_of_eq hlen, ⟨[row], rfl⟩, fun i hi => List.mem_cons_of_mem _ hi⟩
      · rw [if_neg hfull]
        have h3' : (res ++ [row]).length < limit := by
          simp only [List.length_append, List.length_singleton] at hfull ⊢
          omega
        obtain ⟨c1, c2, c3, c4, c5⟩ := ih limit _ (row.id :: seen) h1' h2' h3'
        refine ⟨c1, c2, c3, ?_, fun i hi => c5 i (List.mem_cons_of_mem _ hi)⟩
        obtain ⟨ext, hext⟩ := c4
        refine ⟨row :: ext, ?_⟩
        rw [hext, List.append_assoc]
        rfl

theorem luceneStage_tracks (s : PersistedData) (terms : List (List Char))
    (id0 : Int) (hid0 : (item_by_id s.items id0).isSome)
    (hits : List LuceneSearchHit) :
    ∀ (limit : Nat) (res : List SearchResult) (seen : List Int),
    (id0 ∈ resultIds res ∨ id0 ∉ seen) →
    (id0 ∈ resultIds (luceneStage s terms hits limit res seen).1 ∨
      id0 ∉ (luceneStage s terms hits limit res seen).2) := by
  induction hits with
  | nil =>
    intro limit res seen h
    simpa only [luceneStage] using h
  | cons hit rest ih =>
    intro limit res seen h
    simp only [luceneStage]
    by_cases hseen : hit.id ∈ seen
    · rw [if_pos hseen]
      exact ih limit res seen h
    · rw [if_neg hseen]
      by_cases heq : hit.id = id0
      · subst heq
        cases hfind : item_by_id s.items hit.id with
        | none => rw [hfind] at hid0; exact absurd hid0 (by simp)
        | some item =>
          simp only []
          have hrowid : (map_search_item item terms hit.note_snippet).id = hit.id := by
            rw [map_search_item_id]
            exact item_by_id_eq_id hfind
          have hmem : hit.id ∈
              resultIds (res ++ [map_search_item item terms hit.note_snippet]) := by
            rw [resultIds_append]
            simp [resultIds, hrowid]
          by_cases hfull :
              limit ≤ (res ++ [map_search_item item terms hit.note_snippet]).length
          · rw [if_pos hfull]
            exact Or.inl hmem
          · rw [if_neg hfull]
            exact ih limit _ _ (Or.inl hmem)
      · cases hfind : item_by_id s.items hit.id with
        | none =>
          simp only []
          refine ih limit res (hit.id :: seen) ?_
          rcases h with h | h
          · exact Or.inl h
          · refine Or.inr fun hc => ?_
            rcases List.mem_cons.mp hc with hc | hc
            · exact heq hc.symm
            · exact h hc
        | some item =>
          simp only []
          have hnext : id0 ∈ resultIds (res ++ [map_search_item item terms hit.note_snippet]) ∨
              id0 ∉ hit.id :: seen := by
            rcases h with h | h
            · exact Or.inl (by rw [resultIds_append]; exact List.mem_append_left _ h)
            · refine Or.inr fun hc => ?_
              rcases List.mem_cons.mp hc with hc | hc
              · exact heq hc.symm
              · exact h hc
          by_cases hfull :
              limit ≤ (res ++ [map_search_item item terms hit.note_snippet]).length
          · rw [if_pos hfull]
            exact hnext
          · rw [if_neg hfull]
            exact ih limit _ _ hnext

theorem appendRows_tracks (id0 : Int) (rows : List SearchResult) :
    ∀ (limit : Nat) (res : List SearchResult) (seen : List Int),
    (id0 ∈ resultIds res ∨ (id0 ∈ rows.map SearchResult.id ∧ id0 ∉ seen)) →
    (id0 ∈ resultIds (appendRows rows limit res seen).1 ∨
      limit ≤ (appendRows rows limit res seen).1.length) := by
  induction rows with
  | nil =>
    intro limit res seen h
    simp only [appendRows]
    rcases h with h | h
    · exact Or.inl h
    · exact absurd h.1 (by simp)
  | cons row rest ih =>
    intro limit res seen h
    simp only [appendRows]
    by_cases hseen : row.id ∈ seen
    · rw [if_pos hseen]
      refine ih limit res seen ?_
      rcases h with h | ⟨hmem, hns⟩
      · exact Or.inl h
      · simp only [List.map_cons, List.mem_cons] at hmem
        rcases hmem with hmem' | hmem'
        · exact absurd (by rw [hmem']; exact hseen) hns
        · exact Or.inr ⟨hmem', hns⟩
    · rw [if_neg hseen]
      by_cases hfull : limit ≤ (res ++ [row]).length
      · rw [if_pos hfull]
        exact Or.inr hfull
      · rw [if_neg hfull]
        refine ih limit _ (row.id :: seen) ?_
        rcases h with h | ⟨hmem, hns⟩
        · exact Or.inl (by rw [resultIds_append]; exact List.mem_append_left _ h)
        · by_cases hid : id0 = row.id
          · refine Or.inl ?_
            rw [resultIds_append]
            exact List.mem_append_right _ (by simp [resultIds, hid])
          · simp only [List.map_cons, List.mem_cons] at hmem
            rcases hmem with hmem' | hmem'
            · exact absurd hmem' hid
            · refine Or.inr ⟨hmem', fun hc => ?_⟩
              rcases List.mem_cons.mp hc with hc | hc
              · exact hid hc
              · exact hns hc

theorem appendRows_full (rows : List SearchResult) :
    ∀ (limit : Nat) (res : List SearchResult) (seen : List Int),
    (rows.map SearchResult.id).Nodup → (∀ r ∈ rows, r.id ∉ seen) →
    res.length < limit →
    (appendRows rows limit res seen).1.length = min (res.length + rows.length) limit := by
  induction rows with
  | nil =>
    intro limit res seen _ _ h3
    simp only [appendRows, List.length_nil]
    rw [min_eq_left (by omega)]
    omega
  | cons row rest ih =>
    intro limit res seen hnd hns h3
    simp only [appendRows]
    rw [if_neg (hns row (by simp))]
    by_cases hfull : limit ≤ (res ++ [row]).length
    · rw [if_pos hfull]
      simp only [List.length_append, List.length_cons, List.length_nil] at hfull ⊢
      rw [min_eq_right (by omega)]
      omega
    · rw [if_neg hfull]
      have hnd' : (rest.map SearchResult.id).Nodup := by
        simp only [List.map_cons, List.nodup_cons] at hnd
        exact hnd.2
      have hrow_notin : row.id ∉ rest.map SearchResult.id := by
        simp only [List.map_cons, List.nodup_cons] at hnd
        exact hnd.1
      have hns' : ∀ r ∈ rest, r.id ∉ row.id :: seen := by
        intro r hr hc
        rcases List.mem_cons.mp hc with hc | hc
        · exact hrow_notin (hc ▸ List.mem_map_of_mem SearchResult.id hr)
        · exact hns r (List.mem_cons_of_mem _ hr) hc
      have h3' : (res ++ [row]).length < limit := by
        simp only [List.length_append, List.length_cons, List.length_nil] at hfull ⊢
        omega
      rw [ih limit (res ++ [row]) (row.id :: seen) hnd' hns' h3']
      simp only [List.length_append, List.length_cons, List.length_nil]
      rcases le_or_lt (res.length + (rest.length + 1)) limit with hle | hlt
      · rw [min_eq_left (by omega), min_eq_left (by omega)]
        omega
      · rw [min_eq_right (by omega)]
        rcases le_or_lt (res.length + 1 + rest.length) limit with h2 | h2
        · rw [min_eq_left (by omega)]
          omega
        · rw [min_eq_right (by omega)]

theorem substringRowsGo_ids_sublist (query : List Char)
    (query_terms tokens : List (List Char)) (seen : List Int) :
    ∀ (items : List PersistedItem) (limit : Nat),
    ((substringRowsGo query query_terms tokens seen items limit).map
      SearchResult.id).Sublist (itemIds items) := by
  intro items
  induction items with
  | nil =>
    intro limit
    cases limit <;> simp [substringRowsGo, itemIds]
  | cons item rest ih =>
    intro limit
    cases limit with
    | zero => simp [substringRowsGo, itemIds]
    | succ n =>
      simp only [substringRowsGo]
      by_cases hseen : item.id ∈ seen
      · rw [if_pos hseen]
        exact (ih (n + 1)).trans (List.sublist_cons_self _ _)
      · rw [if_neg hseen]
        by_cases hm : substring_item_matches item query tokens = true
        · rw [if_pos hm]
          simp only [List.map_cons, itemIds, map_search_item_id]
          exact List.Sublist.cons₂ _ (ih n)
        · rw [if_neg hm]
          exact (ih (n + 1)).trans (List.sublist_cons_self _ _)

theorem substringRowsGo_unseen (query : List Char)
    (query_terms tokens : List (List Char)) (seen : List Int) :
    ∀ (items : List PersistedItem) (limit : Nat) (r : SearchResult),
    r ∈ substringRowsGo query query_terms tokens seen items limit → r.id ∉ seen := by
  intro items
  induction items with
  | nil =>
    intro limit r hr
    cases limit <;> simp [substringRowsGo] at hr
  | cons item rest ih =>
    intro limit r hr
    cases limit with
    | zero => simp [substringRowsGo] at hr
    | succ n =>
      simp only [substringRowsGo] at hr
      by_cases hseen : item.id ∈ seen
      · rw [if_pos hseen] at hr
        exact ih (n + 1) r hr
      · rw [if_neg hseen] at hr
        by_cases hm : substring_item_matches item query tokens = true
        · rw [if_pos hm] at hr
          rcases List.mem_cons.mp hr with hr | hr
          · rw [hr, map_search_item_id]
            exact hseen
          · exact ih n r hr
        · rw [if_neg hm] at hr
          exact ih (n + 1) r hr

theorem substringRowsGo_mem (query : List Char)
    (query_terms tokens : List (List Char)) (seen : List Int)
    (item0 : PersistedItem)
    (hmatch : substring_item_matches item0 query tokens = true)
    (hunseen : item0.id ∉ seen) :
    ∀ (items : List PersistedItem) (limit : Nat),
    item0 ∈ items → 1 ≤ limit →
    item0.id ∈ (substringRowsGo query query_terms tokens seen items limit).map
        SearchResult.id ∨
    (substringRowsGo query query_terms tokens seen items limit).length = limit := by
  intro items
  induction items with
  | nil => intro limit hmem; exact absurd hmem (by simp)
  | cons item rest ih =>
    intro limit hmem hlim
    obtain ⟨n, rfl⟩ : ∃ n, limit = n + 1 := ⟨limit - 1, by omega⟩
    simp only [substringRowsGo]
    rcases List.mem_cons.mp hmem with rfl | hmem'
    · rw [if_neg hunseen, if_pos hmatch]
      exact Or.inl (by simp [map_search_item_id])
    · by_cases hseen : item.id ∈ seen
      · rw [if_pos hseen]
        exact ih (n + 1) hmem' hlim
      · rw [if_neg hseen]
        by_cases hm : substring_item_matches item query tokens = true
        · rw [if_pos hm]
          cases n with
          | zero =>
            right
            simp [substringRowsGo]
          | succ m =>
            rcases ih (m + 1) hmem' (by omega) with h | h
            · exact Or.inl (by simp only [List.map_cons, List.mem_cons]; exact Or.inr h)
            · right
              simp only [List.length_cons, h]
        · rw [if_neg hm]
          exact ih (n + 1) hmem' hlim

theorem insertSortedBy_perm (le : α → α → Bool) (a : α) (l : List α) :
    (insertSortedBy le a l).Perm (a :: l) := by
  induction l with
  | nil => simp [insertSortedBy]
  | cons b l ih =>
    simp only [insertSortedBy]
    by_cases h : le a b = true
    · rw [if_pos h]
    · rw [if_neg h]
      exact (ih.cons b).trans (List.Perm.swap a b l)

theorem insertionSortBy_perm (le : α → α → Bool) (l : List α) :
    (insertionSortBy le l).Perm l := by
  induction l with
  | nil => simp [insertionSortBy]
  | cons a l ih =>
    simp only [insertionSortBy]
    exact (insertSortedBy_perm le a _).trans (ih.cons a)

theorem itemIds_nodup {items : List PersistedItem}
    (h : items.Pairwise (fun a b => a.id < b.id)) : (itemIds items).Nodup := by
  have : (itemIds items).Pairwise (· < ·) := by
    rw [itemIds, List.pairwise_map]
    exact h
  exact this.imp (fun hlt => ne_of_lt hlt)

/-- C4: for every query, hit list, and integer limit, the ids returned by
`search` (db.rs) are pairwise distinct and the result has at most `limit`
elements; for `limit ≤ 0` the result is empty.  (The hit list delivered by the
external index enters as a parameter, so this holds whatever tantivy
returns.) -/
theorem search_ids_unique_and_bounded (s : PersistedData)
    (hits : List LuceneSearchHit) (query : List Char) (limit : Int)
    (hwf : s.items.Pairwise (fun a b => a.id < b.id)) :
    (resultIds (search s hits query limit)).Nodup ∧
    (search s hits query limit).length ≤ limit.toNat ∧
    (limit ≤ 0 → search s hits query limit = []) := by
  by_cases h0 : max limit 0 = 0
  · have hs : search s hits query limit = [] := by
      simp [search, h0]
    rw [hs]
    exact ⟨by simp [resultIds], by simp, fun _ => rfl⟩
  · have hpos : 0 < limit := by omega
    have hmax : max limit 0 = limit := by omega
    have hL1 : 1 ≤ limit.toNat := by omega
    simp only [search, hmax]
    rw [if_neg (by omega : ¬limit = 0)]
    by_cases hq : rustTrim query = []
    · rw [if_pos hq]
      refine ⟨?_, ?_, fun hle => absurd hle (by omega)⟩
      · rw [resultIds, List.map_map]
        have hnod : ((ordered_items_for_listing s.items).map
            (fun it => it.id)).Nodup := by
          have hperm := (insertionSortBy_perm listingLe s.items).map
            (fun it : PersistedItem => it.id)
          exact hperm.nodup_iff.mpr (itemIds_nodup hwf)
        exact List.Nodup.sublist
          (List.Sublist.map _ (List.take_sublist _ _)) hnod
      · rw [List.length_map]
        exact List.length_take_le _ _
    · rw [if_neg hq]
      set terms := parse_query_terms (rustTrim query) with hterms
      set L := limit.toNat with hL
      obtain ⟨c1A, c2A, c3A, c4A, c5A⟩ :=
        luceneStage_inv s terms hits L [] [] (by simp [resultIds])
          (by simp [resultIds]) (by simp only [List.length_nil]; omega)
      set p1 := luceneStage s terms hits L [] [] with hp1
      by_cases g1 : L ≤ p1.1.length
      · rw [if_pos g1]
        exact ⟨c2A, c3A, fun hle => absurd hle (by omega)⟩
      · rw [if_neg g1]
        obtain ⟨c1B, c2B, c3B, c4B, c5B⟩ :=
          appendRows_inv
            (substring_search_rows s.items (rustTrim query) terms (L - p1.1.length) p1.2)
            L p1.1 p1.2 c1A c2A (by omega)
        set p2 := appendRows
          (substring_search_rows s.items (rustTrim query) terms (L - p1.1.length) p1.2)
          L p1.1 p1.2 with hp2
        by_cases g2 : L ≤ p2.1.length
        · rw [if_pos g2]
          exact ⟨c2B, c3B, fun hle => absurd hle (by omega)⟩
        · rw [if_neg g2]
          obtain ⟨c1C, c2C, c3C, c4C, c5C⟩ :=
            appendRows_inv
              (fuzzy_search_rows s.items.reverse terms (limit - p2.1.length) p2.2)
              L p2.1 p2.2 c1B c2B (by omega)
          exact ⟨c2C, c3C, fun hle => absurd hle (by omega)⟩

/-- C4 witness: a concrete two-item store, a duplicated hit list, and limit 5. -/
theorem search_ids_unique_and_bounded_witness :
    (resultIds (search
      ⟨3, [], [⟨1, chars "apple pie", [], chars "apple pie", [], []⟩,
        ⟨2, chars "banana", [], chars "banana", [], []⟩]⟩
      [⟨1, none⟩, ⟨1, none⟩, ⟨2, none⟩] (chars "apple") 5)).Nodup ∧
    (search
      ⟨3, [], [⟨1, chars "apple pie", [], chars "apple pie", [], []⟩,
        ⟨2, chars "banana", [], chars "banana", [], []⟩]⟩
      [⟨1, none⟩, ⟨1, none⟩, ⟨2, none⟩] (chars "apple") 5).length ≤ (5 : Int).toNat ∧
    ((5 : Int) ≤ 0 → search
      ⟨3, [], [⟨1, chars "apple pie", [], chars "apple pie", [], []⟩,
        ⟨2, chars "banana", [], chars "banana", [], []⟩]⟩
      [⟨1, none⟩, ⟨1, none⟩, ⟨2, none⟩] (chars "apple") 5 = []) :=
  search_ids_unique_and_bounded
    ⟨3, [], [⟨1, chars "apple pie", [], chars "apple pie", [], []⟩,
      ⟨2, chars "banana", [], chars "banana", [], []⟩]⟩
    [⟨1, none⟩, ⟨1, none⟩, ⟨2, none⟩] (chars "apple") 5 (by decide)

/-- C5 amended: for a single-token query, every stored item whose title or
sanitized note contains the (trimmed) query case-insensitively is returned by
`search` — whatever the index hits are, including none — *unless* the result
list has already been filled to `limit` by other matches; equivalently, the
item's id is in the result or the result length is exactly `limit`. -/
theorem search_substring_match_included (s : PersistedData)
    (hits : List LuceneSearchHit) (query : List Char) (limit : Int)
    (item0 : PersistedItem)
    (hwf : s.items.Pairwise (fun a b => a.id < b.id))
    (hmem : item0 ∈ s.items)
    (hq : ¬rustTrim query = [])
    (htok : (splitWhitespace (rustTrim query)).length ≤ 1)
    (hcontains : (contains_case_insensitive item0.title (rustTrim query) ||
      contains_case_insensitive (sanitize_note_for_preview item0.note)
        (rustTrim query)) = true)
    (hlim : 0 < limit) :
    item0.id ∈ resultIds (search s hits query limit) ∨
    (search s hits query limit).length = limit.toNat := by
  have hmax : max limit 0 = limit := by omega
  simp only [search, hmax]
  rw [if_neg (by omega : ¬limit = 0), if_neg hq]
  set terms := parse_query_terms (rustTrim query) with hterms
  set L := limit.toNat with hL
  have hL1 : 1 ≤ L := by omega
  have hmatch : substring_item_matches item0 (rustTrim query)
      (splitWhitespace (rustTrim query)) = true := by
    simp only [substring_item_matches]
    rw [if_pos htok]
    exact hcontains
  have hid0some : (item_by_id s.items item0.id).isSome := by
    rw [item_by_id, List.find?_isSome]
    exact ⟨item0, hmem, by simp⟩
  obtain ⟨c1A, c2A, c3A, c4A, c5A⟩ :=
    luceneStage_inv s terms hits L [] [] (by simp [resultIds])
      (by simp [resultIds]) (by simp only [List.length_nil]; omega)
  have htrack1 := luceneStage_tracks s terms item0.id hid0some hits L [] []
    (Or.inr (by simp))
  set p1 := luceneStage s terms hits L [] [] with hp1
  by_cases g1 : L ≤ p1.1.length
  · rw [if_pos g1]
    rcases htrack1 with h | h
    · exact Or.inl h
    · exact Or.inr (by omega)
  · rw [if_neg g1]
    have hbridge : substring_search_rows s.items (rustTrim query) terms
        (L - p1.1.length) p1.2 =
        substringRowsGo (rustTrim query) terms (splitWhitespace (rustTrim query))
          p1.2 s.items (L - p1.1.length) := rfl
    obtain ⟨c1B, c2B, c3B, c4B, c5B⟩ :=
      appendRows_inv
        (substring_search_rows s.items (rustTrim query) terms (L - p1.1.length) p1.2)
        L p1.1 p1.2 c1A c2A (by omega)
    set p2 := appendRows
      (substring_search_rows s.items (rustTrim query) terms (L - p1.1.length) p1.2)
      L p1.1 p1.2 with hp2
    by_cases g2 : L ≤ p2.1.length
    · rw [if_pos g2]
      exact Or.inr (by omega)
    · rw [if_neg g2]
      obtain ⟨c1C, c2C, c3C, c4C, c5C⟩ :=
        appendRows_inv
          (fuzzy_search_rows s.items.reverse terms (limit - p2.1.length) p2.2)
          L p2.1 p2.2 c1B c2B (by omega)
      have hinp2 : item0.id ∈ resultIds p2.1 := by
        rcases htrack1 with hin | hnot
        · obtain ⟨ext, hext⟩ := c4B
          rw [hext, resultIds_append]
          exact List.mem_append_left _ hin
        · have hsubmem := substringRowsGo_mem (rustTrim query) terms
            (splitWhitespace (rustTrim query)) p1.2 item0 hmatch hnot
            s.items (L - p1.1.length) hmem (by omega)
          rcases hsubmem with hrid | hfullrows
          · have htrack2 := appendRows_tracks item0.id
              (substring_search_rows s.items (rustTrim query) terms
                (L - p1.1.length) p1.2) L p1.1 p1.2
              (Or.inr ⟨by rw [hbridge]; exact hrid, hnot⟩)
            rcases htrack2 with h | h
            · exact h
            · exact absurd h g2
          · have hrows_nodup : ((substring_search_rows s.items (rustTrim query)
                terms (L - p1.1.length) p1.2).map SearchResult.id).Nodup := by
              rw [hbridge]
              exact List.Nodup.sublist
                (substringRowsGo_ids_sublist _ _ _ _ _ _) (itemIds_nodup hwf)
            have hrows_unseen : ∀ r ∈ substring_search_rows s.items
                (rustTrim query) terms (L - p1.1.length) p1.2, r.id ∉ p1.2 := by
              rw [hbridge]
              exact fun r hr => substringRowsGo_unseen _ _ _ _ _ _ r hr
            have hfull2 := appendRows_full
              (substring_search_rows s.items (rustTrim query) terms
                (L - p1.1.length) p1.2) L p1.1 p1.2 hrows_nodup hrows_unseen
              (by omega)
            have hrlen : (substring_search_rows s.items (rustTrim query) terms
                (L - p1.1.length) p1.2).length = L - p1.1.length := by
              rw [hbridge]
              exact hfullrows
            rw [hrlen] at hfull2
            have hplen : p2.1.length = L := by
              rw [hp2, hfull2]
              have harith : p1.1.length + (L - p1.1.length) = L := by omega
              rw [harith, min_self]
            exact absurd (le_of_eq hplen.symm) g2
      obtain ⟨ext2, hext2⟩ := c4C
      refine Or.inl ?_
      rw [hext2, resultIds_append]
      exact List.mem_append_left _ hinp2

/-- C5 counterexample: two items both match the single-token query `apple` as
a substring (and the index returns no hits), but with `limit = 1` only the
first is returned: item 2 is not in the result, refuting the unconditional
"search returns that item". -/
theorem search_substring_match_cutoff_counterexample :
    contains_case_insensitive (chars "apple tart") (chars "apple") = true ∧
    ¬(2 ∈ resultIds (search
      ⟨3, [], [⟨1, chars "apple pie", [], chars "apple pie", [], []⟩,
        ⟨2, chars "apple tart", [], chars "apple tart", [], []⟩]⟩
      [] (chars "apple") 1)) := by
  constructor
  · decide
  · decide

/-- C5 amended witness: with limit 5 the matching item 2 is returned (or the
result is full, which the disjunction records; here it is actually returned). -/
theorem search_substring_match_included_witness :
    2 ∈ resultIds (search
      ⟨3, [], [⟨1, chars "banana", [], chars "banana", [], []⟩,
        ⟨2, chars "apple tart", [], chars "apple tart", [], []⟩]⟩
      [] (chars "apple") 5) ∨
    (search
      ⟨3, [], [⟨1, chars "banana", [], chars "banana", [], []⟩,
        ⟨2, chars "apple tart", [], chars "apple tart", [], []⟩]⟩
      [] (chars "apple") 5).length = (5 : Int).toNat := by
  have h := search_substring_match_included
    ⟨3, [], [⟨1, chars "banana", [], chars "banana", [], []⟩,
      ⟨2, chars "apple tart", [], chars "apple tart", [], []⟩]⟩
    [] (chars "apple") 5
    ⟨2, chars "apple tart", [], chars "apple tart", [], []⟩
    (by decide) (by decide) (by decide) (by decide) (by decide) (by decide)
  exact h

end AlfredAlt

